import Mathlib

/-!
Verification of the avante repo-map definition extractor
(`crates/avante-repo-map/src/lib.rs`).

The extractor parses a source file with tree-sitter, runs a per-language
query over the tree and folds the resulting capture stream into a list of
`Definition`s which is then serialized to the outline string.

Shallow embedding: a tree-sitter `Node` is a rose tree carrying the node id,
the node kind, the node's source text, and its children each optionally
labelled with a field name (`child_by_field_name` looks the label up,
`find_descendant_by_type` is the preorder walk that `goto_descendant`
performs, starting at the node itself).  A capture, as handed to the builder
loop, is the captured node together with its ancestor chain (innermost
first, what `Node::parent` chains over) and its previous-sibling chain
(nearest first, what `Node::prev_sibling` chains over).  The parser and the
query engine themselves are abstracted: `extract_definitions` is modelled
over the capture stream they produce, quantifying over all streams covers
all source texts.  `BTreeMap` is modelled by an association list kept
sorted by key, matching its ascending iteration order.  Rust's
`char::is_uppercase` is modelled by `Char.isUpper` (ASCII approximation).
-/

set_option linter.unusedVariables false

namespace RepoMap

mutual
/-- A tree-sitter syntax node: id, kind, source text, and children, each
child optionally labelled with the field name it sits under. -/
inductive Node where
  | mk (id : Nat) (kind : String) (text : String) (children : NodeList)

inductive NodeList where
  | nil
  | cons (field_label : Option String) (child : Node) (rest : NodeList)
end

def Node.id : Node → Nat
  | .mk i _ _ _ => i

def Node.kind : Node → String
  | .mk _ k _ _ => k

def Node.text : Node → String
  | .mk _ _ t _ => t

def Node.children : Node → NodeList
  | .mk _ _ _ cs => cs

/-- A leaf node with no children. -/
def leaf (id : Nat) (kind : String) (text : String) : Node :=
  .mk id kind text .nil

/-- `Node::child_by_field_name`: first child carrying the field label. -/
def node_list_find_field : NodeList → String → Option Node
  | .nil, _ => none
  | .cons fl c rest, f => if fl = some f then some c else node_list_find_field rest f

def child_by_field_name (node : Node) (field_name : String) : Option Node :=
  node_list_find_field node.children field_name

/-- `find_child_by_type`: first direct child of the given kind. -/
def node_list_find_kind : NodeList → String → Option Node
  | .nil, _ => none
  | .cons _ c rest, t => if c.kind = t then some c else node_list_find_kind rest t

def find_child_by_type (node : Node) (child_type : String) : Option Node :=
  node_list_find_kind node.children child_type

mutual
/-- `find_descendant_by_type`: preorder search (the node itself included,
matching `goto_descendant 0`) for the first node of the given kind. -/
def find_descendant_by_type (node : Node) (child_type : String) : Option Node :=
  match node with
  | .mk i k t cs =>
    if k = child_type then some (.mk i k t cs)
    else find_descendant_by_type_list cs child_type

def find_descendant_by_type_list (cs : NodeList) (child_type : String) : Option Node :=
  match cs with
  | .nil => none
  | .cons _ c rest =>
    match find_descendant_by_type c child_type with
    | some n => some n
    | none => find_descendant_by_type_list rest child_type
end

/-- A capture as seen by the builder loop: the capture kind (`name`), the
captured node, its ancestor chain (innermost parent first) and its
previous-sibling chain (nearest sibling first). -/
structure Capture where
  name : String
  node : Node
  ancestors : List Node
  prev_siblings : List Node

/-- `find_ancestor_by_type` walking the parent chain. -/
def find_ancestor_by_type (c : Capture) (parent_type : String) : Option Node :=
  c.ancestors.find? (fun p => p.kind == parent_type)

/-- `find_first_ancestor_by_types`. -/
def find_first_ancestor_by_types (c : Capture) (possible_parent_types : List String) : Option Node :=
  c.ancestors.find? (fun p => possible_parent_types.contains p.kind)

/-- `get_closest_ancestor_name`: the text of the `name` field of the nearest
ancestor that has one, else the empty string. -/
def get_closest_ancestor_name (c : Capture) : String :=
  ((c.ancestors.findSome? (fun p => child_by_field_name p "name")).map Node.text).getD ""

/-- `ruby_method_is_private`: scan previous siblings for a `private` /
`public` / `protected` identifier, stopping at a `class` / `module` node. -/
def ruby_method_is_private_aux : List Node → Bool
  | [] => false
  | s :: rest =>
    if s.kind = "identifier" then
      if s.text = "private" then true
      else if s.text = "public" ∨ s.text = "protected" then false
      else ruby_method_is_private_aux rest
    else if s.kind = "class" ∨ s.kind = "module" then false
    else ruby_method_is_private_aux rest

def ruby_method_is_private (c : Capture) : Bool :=
  ruby_method_is_private_aux c.prev_siblings

/-- `zig_find_parent_variable_declaration_name`. -/
def zig_find_parent_variable_declaration_name (c : Capture) : Option String :=
  (find_ancestor_by_type c "variable_declaration").bind
    (fun vardec => (find_child_by_type vardec "identifier").map Node.text)

/-- `zig_is_declaration_public`. -/
def zig_is_declaration_public (c : Capture) (declaration_type : String) : Bool :=
  match find_ancestor_by_type c declaration_type with
  | some declaration => declaration.text.startsWith "pub"
  | none => false

def zig_is_variable_declaration_public (c : Capture) : Bool :=
  zig_is_declaration_public c "variable_declaration"

def zig_is_function_declaration_public (c : Capture) : Bool :=
  zig_is_declaration_public c "function_declaration"

/-- `zig_find_type_in_parent`: the parent node's `type` field. -/
def zig_find_type_in_parent (c : Capture) : Option String :=
  (c.ancestors.head?.bind (fun parent => child_by_field_name parent "type")).map Node.text

/-- `csharp_is_primary_constructor`. -/
def csharp_is_primary_constructor (c : Capture) : Bool :=
  c.node.kind = "parameter_list" &&
    (match c.ancestors.head? with
     | some p => p.kind = "class_declaration" ∨ p.kind = "record_declaration"
     | none => false)

/-- `csharp_find_parent_type_node`. -/
def csharp_find_parent_type_node (c : Capture) : Option Node :=
  find_first_ancestor_by_types c ["class_declaration", "record_declaration"]

/-- `ex_find_parent_module_declaration_name`: nearest `call` ancestor whose
text starts with `defmodule ` and that has an `arguments` child. -/
def ex_find_parent_module_declaration_name (c : Capture) : Option String :=
  c.ancestors.findSome? (fun p =>
    if p.kind = "call" ∧ p.text.startsWith "defmodule " = true then
      (find_child_by_type p "arguments").map Node.text
    else none)

/-- `ruby_find_parent_module_declaration_name`: `::`-joined names of the
`module`/`class` nodes on the path from the node to the root. -/
def ruby_find_parent_module_declaration_name (c : Capture) : Option String :=
  let path_parts := (c.node :: c.ancestors).filterMap (fun n =>
    if n.kind = "module" ∨ n.kind = "class" then
      (child_by_field_name n "name").map Node.text
    else none)
  if path_parts = [] then none
  else some (String.intercalate "::" path_parts.reverse)

/-- Rust's `str::contains` (substring containment). -/
def contains_substr (s pat : String) : Bool :=
  decide (pat.data <:+: s.data)

/-- `get_node_type`: first `predefined_type` descendant, else the `type`
field, else the empty string. -/
def get_node_type (node : Node) : String :=
  match find_descendant_by_type node "predefined_type" with
  | some type_node => type_node.text
  | none => ((child_by_field_name node "type").map Node.text).getD ""

/-- `is_first_letter_uppercase` (ASCII `Char.isUpper` approximating Rust's
Unicode `char::is_uppercase`). -/
def is_first_letter_uppercase (name : String) : Bool :=
  match name.data with
  | [] => false
  | ch :: _ => ch.isUpper

/-- `modifiers`-descendant-contains-`private` test used by the Java filters. -/
def java_modifiers_private (node : Node) : Bool :=
  match find_descendant_by_type node "modifiers" with
  | some modifier_node => contains_substr modifier_node.text "private"
  | none => false

/-! ### Data model (`Func`, `Class`, `Enum`, `Union`, `Variable`, `Definition`) -/

structure Func where
  name : String
  params : String
  return_type : String
  accessibility_modifier : Option String
deriving DecidableEq, Repr

structure Variable where
  name : String
  value_type : String
deriving DecidableEq, Repr

structure Class where
  type_name : String
  name : String
  methods : List Func
  properties : List Variable
  visibility_modifier : Option String
deriving DecidableEq, Repr

structure Enum where
  name : String
  items : List Variable
deriving DecidableEq, Repr

structure Union where
  name : String
  items : List Variable
deriving DecidableEq, Repr

inductive Definition where
  | Func (f : RepoMap.Func)
  | Class (c : RepoMap.Class)
  | Module (c : RepoMap.Class)
  | Enum (e : RepoMap.Enum)
  | Variable (v : RepoMap.Variable)
  | Union (u : RepoMap.Union)
deriving DecidableEq, Repr

/-- Lexicographic order on character lists (code-point order, which agrees
with `BTreeMap`'s byte-lexicographic order on UTF-8 strings). -/
def chars_lt : List Char → List Char → Bool
  | _, [] => false
  | [], _ :: _ => true
  | a :: as, b :: bs =>
    if a.toNat < b.toNat then true
    else if b.toNat < a.toNat then false
    else chars_lt as bs

/-- The key order of `BTreeMap<String, _>`. -/
def string_lt (a b : String) : Bool := chars_lt a.data b.data

/-! ### `BTreeMap` model: association lists kept sorted by key

`BTreeMap<String, _>` is modelled by `List (String × α)`; the insertion used
by the `ensure_*_def` closures (`entry(..).or_insert_with(..)`) keeps the
list sorted in ascending key order, matching the map's iteration order. -/

variable {α : Type}

def map_keys (m : List (String × α)) : List String :=
  m.map (fun kv => kv.1)

/-- Keys in strictly ascending order: the `BTreeMap` invariant. -/
def keys_sorted (m : List (String × α)) : Prop :=
  List.Pairwise (fun a b => string_lt a b = true) (map_keys m)

/-- `entry(k).or_insert_with(default)`: insert at the sorted position when
the key is absent, leave the map unchanged when it is present. -/
def entry_or_insert (m : List (String × α)) (k : String) (d : α) : List (String × α) :=
  match m with
  | [] => [(k, d)]
  | (k', v) :: rest =>
    if string_lt k k' = true then (k, d) :: (k', v) :: rest
    else if k = k' then (k', v) :: rest
    else (k', v) :: entry_or_insert rest k d

/-- `get_mut(k)` followed by a mutation of the value. -/
def map_modify (m : List (String × α)) (k : String) (g : α → α) : List (String × α) :=
  m.map (fun kv => if kv.1 = k then (kv.1, g kv.2) else kv)

/-- Lookup by key (first occurrence). -/
def map_lookup : List (String × α) → String → Option α
  | [], _ => none
  | (k', v) :: rest, k => if k' = k then some v else map_lookup rest k

/-- Every stored value's name field agrees with its key. -/
def names_ok (f : α → String) (m : List (String × α)) : Prop :=
  ∀ kv ∈ m, f kv.2 = kv.1

/-! ### Grammar registry and pattern scripts -/

/-- The sixteen grammar handles (`tree_sitter_*::LANGUAGE`). -/
inductive LanguageFn where
  | rust | python | php | java | javascript | typescript | go | c | cpp
  | lua | ruby | zig | scala | swift | elixir | csharp
deriving DecidableEq, Repr

/-- `get_ts_language`. -/
def get_ts_language (language : String) : Option LanguageFn :=
  match language with
  | "rust" => some .rust
  | "python" => some .python
  | "php" => some .php
  | "java" => some .java
  | "javascript" => some .javascript
  | "typescript" => some .typescript
  | "go" => some .go
  | "c" => some .c
  | "cpp" => some .cpp
  | "lua" => some .lua
  | "ruby" => some .ruby
  | "zig" => some .zig
  | "scala" => some .scala
  | "swift" => some .swift
  | "elixir" => some .elixir
  | "csharp" => some .csharp
  | _ => none

/-- Modelled from the spec: the pattern-script contents
(`queries/tree-sitter-*-defs.scm`, bundled by `include_str!` and not under
`src/`) are opaque data; each constant stands for the file's contents.
Only their identity matters to the control flow modelled here. -/
def C_QUERY : String := "tree-sitter-c-defs.scm"

def CPP_QUERY : String := "tree-sitter-cpp-defs.scm"

def GO_QUERY : String := "tree-sitter-go-defs.scm"

def JAVA_QUERY : String := "tree-sitter-java-defs.scm"

def JAVASCRIPT_QUERY : String := "tree-sitter-javascript-defs.scm"

def LUA_QUERY : String := "tree-sitter-lua-defs.scm"

def PYTHON_QUERY : String := "tree-sitter-python-defs.scm"

def PHP_QUERY : String := "tree-sitter-php-defs.scm"

def RUST_QUERY : String := "tree-sitter-rust-defs.scm"

def ZIG_QUERY : String := "tree-sitter-zig-defs.scm"

def TYPESCRIPT_QUERY : String := "tree-sitter-typescript-defs.scm"

def RUBY_QUERY : String := "tree-sitter-ruby-defs.scm"

def SCALA_QUERY : String := "tree-sitter-scala-defs.scm"

def SWIFT_QUERY : String := "tree-sitter-swift-defs.scm"

def ELIXIR_QUERY : String := "tree-sitter-elixir-defs.scm"

def CSHARP_QUERY : String := "tree-sitter-c-sharp-defs.scm"

/-- `get_definitions_query`.  `Query::new` itself panics (rather than
returning the `Err` branch) on a malformed pattern script, so the only
`Err` value this function can produce is `Unsupported language`. -/
def get_definitions_query (language : String) : Except String String :=
  match get_ts_language language with
  | none => .error ("Unsupported language: " ++ language)
  | some _ =>
    match language with
    | "c" => .ok C_QUERY
    | "cpp" => .ok CPP_QUERY
    | "go" => .ok GO_QUERY
    | "java" => .ok JAVA_QUERY
    | "javascript" => .ok JAVASCRIPT_QUERY
    | "lua" => .ok LUA_QUERY
    | "php" => .ok PHP_QUERY
    | "python" => .ok PYTHON_QUERY
    | "rust" => .ok RUST_QUERY
    | "zig" => .ok ZIG_QUERY
    | "typescript" => .ok TYPESCRIPT_QUERY
    | "ruby" => .ok RUBY_QUERY
    | "scala" => .ok SCALA_QUERY
    | "swift" => .ok SWIFT_QUERY
    | "elixir" => .ok ELIXIR_QUERY
    | "csharp" => .ok CSHARP_QUERY
    | _ => .error ("Unsupported language: " ++ language)

/-! ### Builder state -/

/-- The mutable state of the capture loop in `extract_definitions`:
the top-level `definitions` vector, the three keyed container maps, and the
per-capture-kind set of already processed node ids. -/
structure ExtractState where
  definitions : List Definition
  class_def_map : List (String × RepoMap.Class)
  enum_def_map : List (String × RepoMap.Enum)
  union_def_map : List (String × RepoMap.Union)
  captured_nodes : List (String × List Nat)
deriving DecidableEq, Repr

def init_state : ExtractState :=
  { definitions := [], class_def_map := [], enum_def_map := [],
    union_def_map := [], captured_nodes := [] }

/-- `ensure_class_def`. -/
def ensure_class_def (language : String) (name : String)
    (class_def_map : List (String × RepoMap.Class)) : List (String × RepoMap.Class) :=
  let type_name := if language = "elixir" then "module" else "class"
  entry_or_insert class_def_map name
    { type_name := type_name, name := name, methods := [], properties := [],
      visibility_modifier := none }

/-- `ensure_module_def`. -/
def ensure_module_def (name : String)
    (class_def_map : List (String × RepoMap.Class)) : List (String × RepoMap.Class) :=
  entry_or_insert class_def_map name
    { type_name := "module", name := name, methods := [], properties := [],
      visibility_modifier := none }

/-- `ensure_enum_def`. -/
def ensure_enum_def (name : String)
    (enum_def_map : List (String × RepoMap.Enum)) : List (String × RepoMap.Enum) :=
  entry_or_insert enum_def_map name { name := name, items := [] }

/-- `ensure_union_def`. -/
def ensure_union_def (name : String)
    (union_def_map : List (String × RepoMap.Union)) : List (String × RepoMap.Union) :=
  entry_or_insert union_def_map name { name := name, items := [] }

/-- `captured_nodes.get(name).map_or(false, |v| v.contains(&node_id))`. -/
def node_in_captured (m : List (String × List Nat)) (k : String) (i : Nat) : Bool :=
  match map_lookup m k with
  | some v => v.contains i
  | none => false

/-- `captured_nodes.entry(name).or_default().push(node_id)`. -/
def push_captured : List (String × List Nat) → String → Nat → List (String × List Nat)
  | [], k, i => [(k, [i])]
  | (k', v) :: rest, k, i =>
    if k' = k then (k', v ++ [i]) :: rest else (k', v) :: push_captured rest k i

/-! ### Name derivation (per-language, lines 410-482 of `lib.rs`) -/

def derive_name (language : String) (c : Capture) : String :=
  let node_text := c.node.text
  match language with
  | "cpp" =>
    if c.name = "class" then
      ((child_by_field_name c.node "name").map Node.text).getD node_text
    else
      match (find_descendant_by_type c.node "field_identifier").orElse
          (fun _ => (find_descendant_by_type c.node "operator_name").orElse
            (fun _ => find_descendant_by_type c.node "identifier")) with
      | some ident_node =>
        match ((child_by_field_name c.node "declarator").bind
            (fun n => child_by_field_name n "declarator")).bind
            (fun n => child_by_field_name n "scope") with
        | some scope_node => scope_node.text ++ "::" ++ ident_node.text
        | none => ident_node.text
      | none => node_text
  | "scala" =>
    (((child_by_field_name c.node "name").orElse
        (fun _ => child_by_field_name c.node "pattern")).map Node.text).getD node_text
  | "csharp" =>
    let identifier :=
      if c.name = "method" ∧ csharp_is_primary_constructor c = true then
        (c.ancestors.head?).getD c.node
      else if c.name = "class_variable" then
        (find_descendant_by_type c.node "variable_declarator").getD c.node
      else c.node
    ((child_by_field_name identifier "name").map Node.text).getD node_text
  | "ruby" =>
    let name := ((child_by_field_name c.node "name").map Node.text).getD node_text
    if c.name = "class" ∨ c.name = "module" then
      (ruby_find_parent_module_declaration_name c).getD name
    else name
  | _ => ((child_by_field_name c.node "name").map Node.text).getD node_text

/-! ### The capture-kind branches of the builder loop -/

/-- The `visibility_modifier`-descendant text (the two-line idiom repeated
at the head of most branches), empty when the descendant is absent. -/
def visibility_modifier_text (node : Node) : String :=
  ((find_descendant_by_type node "visibility_modifier").map Node.text).getD ""

/-- The `left` field's text, used by the assignment branches. -/
def assignment_left (node : Node) : String :=
  ((child_by_field_name node "left").map Node.text).getD ""

/-- `"class"` branch. -/
def process_class (language : String) (st : ExtractState) (name : String)
    (c : Capture) : ExtractState :=
  if name ≠ "" then
    if language = "go" ∧ is_first_letter_uppercase name = false then st
    else
      let m := ensure_class_def language name st.class_def_map
      let visibility_modifier :=
        ((find_child_by_type c.node "visibility_modifier").map Node.text).getD ""
      { st with class_def_map :=
          (map_modify m name (fun cd =>
            { cd with visibility_modifier :=
                if visibility_modifier = "" then none else some visibility_modifier })) }
  else st

/-- `"module"` branch. -/
def process_module (st : ExtractState) (name : String) : ExtractState :=
  if name ≠ "" then
    { st with class_def_map := ensure_module_def name st.class_def_map }
  else st

/-- Container resolution of the `"enum_item"` branch: the closest ancestor
name, overridden for Zig by the enclosing variable declaration and for Scala
by the enclosing `enum_definition`'s name. -/
def enum_item_enum_name (language : String) (c : Capture) : String :=
  let enum_name := get_closest_ancestor_name c
  let enum_name :=
    if language = "zig" then (zig_find_parent_variable_declaration_name c).getD ""
    else enum_name
  if language = "scala" then
    match (find_ancestor_by_type c "enum_definition").bind
        (fun n => child_by_field_name n "name") with
    | some name_node => name_node.text
    | none => enum_name
  else enum_name

/-- `"enum_item"` branch. -/
def process_enum_item (language : String) (st : ExtractState) (name : String)
    (c : Capture) : ExtractState :=
  if language = "rust" ∧
      contains_substr (visibility_modifier_text c.node) "pub" = false then st
  else if language = "zig" ∧ zig_is_variable_declaration_public c = false then st
  else if enum_item_enum_name language c ≠ "" ∧ language = "go" ∧
      is_first_letter_uppercase (enum_item_enum_name language c) = false then st
  else
    let enum_name := enum_item_enum_name language c
    let enum_type :=
      ((find_descendant_by_type c.node "type_identifier").map Node.text).getD ""
    { st with enum_def_map :=
        (map_modify (ensure_enum_def enum_name st.enum_def_map) enum_name
          (fun ed => { ed with items :=
            ed.items ++ [{ name := name, value_type := enum_type }] })) }

/-- `"union_item"` branch. -/
def process_union_item (language : String) (st : ExtractState) (name : String)
    (c : Capture) : ExtractState :=
  if language ≠ "zig" then st
  else if zig_is_variable_declaration_public c = false then st
  else
    let union_name := (zig_find_parent_variable_declaration_name c).getD ""
    let union_type :=
      ((find_descendant_by_type c.node "type_identifier").map Node.text).getD ""
    { st with union_def_map :=
        (map_modify (ensure_union_def union_name st.union_def_map) union_name
          (fun ud => { ud with items :=
            ud.items ++ [{ name := name, value_type := union_type }] })) }

/-- Parameter extraction for the `"method"` branch. -/
def method_params (language : String) (c : Capture) : String :=
  let params_node :=
    (child_by_field_name c.node "parameters").orElse
      (fun _ => find_descendant_by_type c.node "parameter_list")
  let params_node :=
    if language = "zig" then
      (find_ancestor_by_type c "function_declaration").bind
        (fun n => find_child_by_type n "parameters")
    else params_node
  let params_node :=
    if language = "elixir" then
      (find_ancestor_by_type c "call").bind
        (fun n => find_child_by_type n "arguments")
    else params_node
  (params_node.map Node.text).getD "()"

/-- Return-type node resolution for the `"method"` branch: the per-language
field, the C++/C# constructor rule, then the `result` fallback. -/
def method_return_type_node (language : String) (name : String) (c : Capture) : Option Node :=
  let return_type_node :=
    match language with
    | "cpp" => child_by_field_name c.node "type"
    | "csharp" => child_by_field_name c.node "returns"
    | _ => child_by_field_name c.node "return_type"
  let return_type_node :=
    if language = "cpp" then
      match (find_ancestor_by_type c "class_specifier").bind
          (fun n => child_by_field_name n "name") with
      | some type_identifier_node =>
        if name = type_identifier_node.text then some type_identifier_node
        else return_type_node
      | none => return_type_node
    else return_type_node
  let return_type_node :=
    if language = "csharp" then
      match (csharp_find_parent_type_node c).bind
          (fun n => child_by_field_name n "name") with
      | some type_identifier_node =>
        if name = type_identifier_node.text then some type_identifier_node
        else return_type_node
      | none => return_type_node
    else return_type_node
  match return_type_node with
  | none => child_by_field_name c.node "result"
  | some n => some n

/-- Return-type string for the `"method"` branch: default `"void"`
(Elixir: `""`), else `get_node_type` with raw-text fallback. -/
def method_return_type (language : String) (name : String) (c : Capture) : String :=
  match method_return_type_node language name c with
  | none => if language = "elixir" then "" else "void"
  | some rn =>
    let t := get_node_type rn
    if t = "" then rn.text else t

/-- Container resolution for the `"method"` branch. -/
def method_class_name (language : String) (c : Capture) : String :=
  if language = "zig" then (zig_find_parent_variable_declaration_name c).getD ""
  else if language = "elixir" then (ex_find_parent_module_declaration_name c).getD ""
  else if language = "cpp" then
    ((((find_ancestor_by_type c "class_specifier").orElse
        (fun _ => find_ancestor_by_type c "struct_specifier")).bind
        (fun n => child_by_field_name n "name")).map Node.text).getD ""
  else if language = "csharp" then
    (((csharp_find_parent_type_node c).bind
        (fun n => child_by_field_name n "name")).map Node.text).getD ""
  else if language = "ruby" then
    (ruby_find_parent_module_declaration_name c).getD ""
  else
    match find_ancestor_by_type c "impl_item" with
    | some impl_item =>
      ((child_by_field_name impl_item "type").map Node.text).getD ""
    | none =>
      match child_by_field_name c.node "receiver" with
      | some receiver =>
        ((find_descendant_by_type receiver "type_identifier").map Node.text).getD ""
      | none => get_closest_ancestor_name c

/-- Accessibility modifier for the `"method"` branch (Ruby: the running
previous-sibling accessibility mode). -/
def method_accessibility (language : String) (c : Capture) : String :=
  if language = "ruby" then
    if ruby_method_is_private c then "private" else ""
  else
    ((find_descendant_by_type c.node "accessibility_modifier").map Node.text).getD ""

/-- `"method"` branch. -/
def process_method (language : String) (st : ExtractState) (name : String)
    (c : Capture) : ExtractState :=
  if language = "swift" ∧
      contains_substr (visibility_modifier_text c.node) "private" = true then st
  else if language = "java" ∧ java_modifiers_private c.node = true then st
  else if language = "rust" ∧
      contains_substr (visibility_modifier_text c.node) "pub" = false then st
  else if language = "zig" ∧
      ¬(zig_is_function_declaration_public c = true ∧
        zig_is_variable_declaration_public c = true) then st
  else if language = "cpp" ∧
      (find_descendant_by_type c.node "destructor_name").isSome = true then st
  else if name ≠ "" ∧ language = "go" ∧ is_first_letter_uppercase name = false then st
  else if language = "csharp" ∧ (find_descendant_by_type c.node "modifier").isNone = true ∧
      csharp_is_primary_constructor c = false then st
  else if language = "csharp" ∧
      (match find_descendant_by_type c.node "modifier" with
       | some mv => mv.text == "private"
       | none => false) = true then st
  else if language = "go" ∧
      is_first_letter_uppercase (method_class_name language c) = false then st
  else
    let params := method_params language c
    let return_type := method_return_type language name c
    let class_name := method_class_name language c
    let accessibility_modifier := method_accessibility language c
    let func : RepoMap.Func :=
      { name := name, params := params, return_type := return_type,
        accessibility_modifier :=
          if accessibility_modifier = "" then none else some accessibility_modifier }
    { st with class_def_map :=
        (map_modify (ensure_class_def language class_name st.class_def_map) class_name
          (fun cd => { cd with methods := cd.methods ++ [func] })) }

/-- Container resolution of the `"class_assignment"` branch: the closest
ancestor name, replaced for Ruby (when non-empty) by the `::`-joined module
path when one exists. -/
def class_assignment_class_name (language : String) (c : Capture) : String :=
  let class_name := get_closest_ancestor_name c
  if class_name ≠ "" ∧ language = "ruby" then
    (ruby_find_parent_module_declaration_name c).getD class_name
  else class_name

/-- `"class_assignment"` branch. -/
def process_class_assignment (language : String) (st : ExtractState)
    (c : Capture) : ExtractState :=
  if (language = "swift" ∨ language = "java") ∧
      contains_substr (visibility_modifier_text c.node) "private" = true then st
  else if language = "java" ∧ java_modifiers_private c.node = true then st
  else if language = "rust" ∧
      contains_substr (visibility_modifier_text c.node) "pub" = false then st
  else if get_closest_ancestor_name c ≠ "" ∧ language ≠ "ruby" ∧ language = "go" ∧
      is_first_letter_uppercase (get_closest_ancestor_name c) = false then st
  else if class_assignment_class_name language c = "" then st
  else
    let left := assignment_left c.node
    let value_type := get_node_type c.node
    let class_name := class_assignment_class_name language c
    { st with class_def_map :=
        (map_modify (ensure_class_def language class_name st.class_def_map) class_name
          (fun cd => { cd with properties :=
            cd.properties ++ [{ name := left, value_type := value_type }] })) }

/-- Container resolution of the `"class_variable"` branch: the closest
ancestor name, overridden for C++ by the enclosing class/struct specifier's
name and for Zig by the enclosing variable declaration's identifier. -/
def class_variable_class_name (language : String) (c : Capture) : String :=
  let class_name := get_closest_ancestor_name c
  let class_name :=
    if language = "cpp" then
      ((((find_ancestor_by_type c "class_specifier").orElse
          (fun _ => find_ancestor_by_type c "struct_specifier")).bind
          (fun n => child_by_field_name n "name")).map Node.text).getD ""
    else class_name
  if language = "zig" then (zig_find_parent_variable_declaration_name c).getD ""
  else class_name

/-- `"class_variable"` branch. -/
def process_class_variable (language : String) (st : ExtractState) (name : String)
    (c : Capture) : ExtractState :=
  if language = "rust" ∧
      contains_substr (visibility_modifier_text c.node) "pub" = false then st
  else if (language = "swift" ∨ language = "java") ∧
      contains_substr (visibility_modifier_text c.node) "private" = true then st
  else if language = "java" ∧ java_modifiers_private c.node = true then st
  else if language = "zig" ∧ zig_is_variable_declaration_public c = false then st
  else if language = "csharp" ∧ (find_descendant_by_type c.node "modifier").isNone = true then st
  else if language = "csharp" ∧
      (match find_descendant_by_type c.node "modifier" with
       | some mv => mv.text == "private"
       | none => false) = true then st
  else if class_variable_class_name language c ≠ "" ∧ language = "go" ∧
      is_first_letter_uppercase (class_variable_class_name language c) = false then st
  else if class_variable_class_name language c = "" then st
  else if name ≠ "" ∧ language = "go" ∧ is_first_letter_uppercase name = false then st
  else
    let value_type := get_node_type c.node
    let class_name := class_variable_class_name language c
    { st with class_def_map :=
        (map_modify (ensure_class_def language class_name st.class_def_map) class_name
          (fun cd => { cd with properties :=
            cd.properties ++ [{ name := name, value_type := value_type }] })) }

/-- Parameter extraction for the `"function" | "arrow_function"` branch. -/
def function_params (c : Capture) : String :=
  (((child_by_field_name c.node "parameters").orElse
      (fun _ => find_descendant_by_type c.node "parameter_list")).map Node.text).getD "()"

/-- Accessibility modifier for the `"function" | "arrow_function"` branch. -/
def function_accessibility (c : Capture) : String :=
  ((find_descendant_by_type c.node "accessibility_modifier").map Node.text).getD ""

/-- Return-type node resolution for the `"function" | "arrow_function"`
branch.  Unlike the method branch there is no Elixir default. -/
def function_return_type_node (language : String) (c : Capture) : Option Node :=
  match language with
  | "cpp" => child_by_field_name c.node "type"
  | _ =>
    (child_by_field_name c.node "return_type").orElse
      (fun _ => child_by_field_name c.node "result")

def function_return_type (language : String) (c : Capture) : String :=
  match function_return_type_node language c with
  | none => "void"
  | some rn =>
    let t := get_node_type rn
    if t = "" then rn.text else t

/-- `"function" | "arrow_function"` branch. -/
def process_function (language : String) (st : ExtractState) (name : String)
    (c : Capture) : ExtractState :=
  if (language = "swift" ∨ language = "java") ∧
      contains_substr (visibility_modifier_text c.node) "private" = true then st
  else if (language = "swift" ∨ language = "java") ∧ c.ancestors.isEmpty = false then st
  else if language = "java" ∧ java_modifiers_private c.node = true then st
  else if language = "rust" ∧
      contains_substr (visibility_modifier_text c.node) "pub" = false then st
  else if language = "zig" ∧ contains_substr c.node.text "pub" = false then st
  else if name ≠ "" ∧ language = "go" ∧ is_first_letter_uppercase name = false then st
  else if (find_ancestor_by_type c "impl_item").isSome = true then st
  else if (find_ancestor_by_type c "class_specifier").isSome = true then st
  else if (find_ancestor_by_type c "struct_specifier").isSome = true then st
  else if ((find_ancestor_by_type c "function_declaration").orElse
      (fun _ => find_ancestor_by_type c "function_definition")).isSome = true then st
  else
    let params := function_params c
    let return_type := function_return_type language c
    let accessibility_modifier := function_accessibility c
    { st with definitions := st.definitions ++
        [Definition.Func
          { name := name, params := params, return_type := return_type,
            accessibility_modifier :=
              if accessibility_modifier = "" then none else some accessibility_modifier }] }

/-- `"assignment"` branch. -/
def process_assignment (language : String) (st : ExtractState)
    (c : Capture) : ExtractState :=
  if (language = "swift" ∨ language = "java") ∧
      contains_substr (visibility_modifier_text c.node) "private" = true then st
  else if language = "java" ∧ java_modifiers_private c.node = true then st
  else if language = "rust" ∧
      contains_substr (visibility_modifier_text c.node) "pub" = false then st
  else if ((find_ancestor_by_type c "impl_item").orElse
      (fun _ => (find_ancestor_by_type c "class_declaration").orElse
        (fun _ => find_ancestor_by_type c "class_definition"))).isSome = true then st
  else if ((find_ancestor_by_type c "function_declaration").orElse
      (fun _ => find_ancestor_by_type c "function_definition")).isSome = true then st
  else if assignment_left c.node ≠ "" ∧ language = "go" ∧
      is_first_letter_uppercase (assignment_left c.node) = false then st
  else
    let left := assignment_left c.node
    let value_type := get_node_type c.node
    { st with definitions := st.definitions ++
        [Definition.Variable { name := left, value_type := value_type }] }

/-- Tail of the `"variable"` branch (the non-arrow-function path). -/
def process_variable_tail (language : String) (st : ExtractState) (name : String)
    (c : Capture) : ExtractState :=
  if language = "zig" ∧ (zig_find_type_in_parent c).isNone = true then st
  else if name ≠ "" ∧ language = "go" ∧ is_first_letter_uppercase name = false then st
  else
    let value_type :=
      if language = "zig" then (zig_find_type_in_parent c).getD (get_node_type c.node)
      else get_node_type c.node
    { st with definitions := st.definitions ++
        [Definition.Variable { name := name, value_type := value_type }] }

/-- `"variable"` branch. -/
def process_variable (language : String) (st : ExtractState) (name : String)
    (c : Capture) : ExtractState :=
  if language = "swift" ∧
      contains_substr (visibility_modifier_text c.node) "private" = true then st
  else if language = "java" ∧ java_modifiers_private c.node = true then st
  else if language = "rust" ∧
      contains_substr (visibility_modifier_text c.node) "pub" = false then st
  else if language = "zig" ∧ zig_is_variable_declaration_public c = false then st
  else if ((find_ancestor_by_type c "impl_item").orElse
      (fun _ => (find_ancestor_by_type c "class_declaration").orElse
        (fun _ => find_ancestor_by_type c "class_definition"))).isSome = true then st
  else if ((find_ancestor_by_type c "function_declaration").orElse
      (fun _ => find_ancestor_by_type c "function_definition")).isSome = true then st
  else
    match child_by_field_name c.node "value" with
    | some value_node =>
      if value_node.kind = "arrow_function" then
        let params := ((child_by_field_name value_node "parameters").map Node.text).getD "()"
        let return_type :=
          match child_by_field_name value_node "return_type" with
          | some rn => get_node_type rn
          | none => "void"
        { st with definitions := st.definitions ++
            [Definition.Func
              { name := name, params := params, return_type := return_type,
                accessibility_modifier := none }] }
      else process_variable_tail language st name c
    | none => process_variable_tail language st name c

/-- The body of the capture loop, after the per-kind node-id deduplication:
name derivation followed by the dispatch on the capture kind. -/
def process_capture (language : String) (st : ExtractState) (c : Capture) : ExtractState :=
  let name := derive_name language c
  match c.name with
  | "class" => process_class language st name c
  | "module" => process_module st name
  | "enum_item" => process_enum_item language st name c
  | "union_item" => process_union_item language st name c
  | "method" => process_method language st name c
  | "class_assignment" => process_class_assignment language st c
  | "class_variable" => process_class_variable language st name c
  | "function" => process_function language st name c
  | "arrow_function" => process_function language st name c
  | "assignment" => process_assignment language st c
  | "variable" => process_variable language st name c
  | _ => st

/-- One iteration of the capture loop: the per-kind node-id deduplication
followed by `process_capture`. -/
def step_capture (language : String) (st : ExtractState) (c : Capture) : ExtractState :=
  let node_id := c.node.id
  if node_in_captured st.captured_nodes c.name node_id = true then st
  else
    process_capture language
      { st with captured_nodes := push_captured st.captured_nodes c.name node_id } c

/-- The whole capture loop. -/
def run_captures (language : String) (captures : List Capture) : ExtractState :=
  captures.foldl (step_capture language) init_state

/-- One entry of the final class pass: the record is emitted except, for
Rust, when its recorded `visibility_modifier` is absent or lacks `pub`. -/
def finalize_classes_entry (language : String)
    (kv : String × RepoMap.Class) : Option Definition :=
  if language = "rust" then
    match kv.2.visibility_modifier with
    | some visibility_modifier =>
      if contains_substr visibility_modifier "pub" then some (Definition.Class kv.2)
      else none
    | none => none
  else some (Definition.Class kv.2)

/-- The final class pass. -/
def finalize_classes (language : String)
    (class_def_map : List (String × RepoMap.Class)) : List Definition :=
  class_def_map.filterMap (finalize_classes_entry language)

/-- The three final passes appended to the top-level definitions. -/
def finalize (language : String) (st : ExtractState) : List Definition :=
  st.definitions
    ++ finalize_classes language st.class_def_map
    ++ st.enum_def_map.map (fun kv => Definition.Enum kv.2)
    ++ st.union_def_map.map (fun kv => Definition.Union kv.2)

/-- `extract_definitions`, modelled over the capture stream that the parser
and query cursor produce from the source text. -/
def extract_definitions (language : String) (captures : List Capture) :
    Except String (List Definition) :=
  match get_ts_language language with
  | none => .ok []
  | some _ =>
    match get_definitions_query language with
    | .error e => .error e
    | .ok _query => .ok (finalize language (run_captures language captures))

/-! ### Serializer -/

/-- `stringify_function`. -/
def stringify_function (func : Func) : String :=
  let res := "func " ++ func.name
  let res := if func.params = "" then res ++ "()" else res ++ func.params
  let res := if func.return_type ≠ "" then res ++ " -> " ++ func.return_type else res
  let res :=
    match func.accessibility_modifier with
    | some m => m ++ " " ++ res
    | none => res
  res ++ ";"

/-- `stringify_variable`. -/
def stringify_variable (v : Variable) : String :=
  let res := "var " ++ v.name
  let res := if v.value_type ≠ "" then res ++ ":" ++ v.value_type else res
  res ++ ";"

/-- `stringify_enum_item`. -/
def stringify_enum_item (item : Variable) : String :=
  let res := item.name
  let res := if item.value_type ≠ "" then res ++ ":" ++ item.value_type else res
  res ++ ";"

/-- `stringify_union_item`. -/
def stringify_union_item (item : Variable) : String :=
  let res := item.name
  let res := if item.value_type ≠ "" then res ++ ":" ++ item.value_type else res
  res ++ ";"

/-- `stringify_class` (braces written with character escapes). -/
def stringify_class (cls : Class) : String :=
  let res := cls.type_name ++ " " ++ cls.name ++ "\x7b"
  let res := cls.methods.foldl (fun res m => res ++ stringify_function m) res
  let res := cls.properties.foldl (fun res p => res ++ stringify_variable p) res
  res ++ "\x7d;"

/-- `stringify_enum`. -/
def stringify_enum (enum_def : Enum) : String :=
  let res := "enum " ++ enum_def.name ++ "\x7b"
  let res := enum_def.items.foldl (fun res item => res ++ stringify_enum_item item) res
  res ++ "\x7d;"

/-- `stringify_union`. -/
def stringify_union (union_def : Union) : String :=
  let res := "union " ++ union_def.name ++ "\x7b"
  let res := union_def.items.foldl (fun res item => res ++ stringify_union_item item) res
  res ++ "\x7d;"

/-- One definition's rendering (the body of the match in
`stringify_definitions`). -/
def stringify_definition : Definition → String
  | .Class cls => stringify_class cls
  | .Module m => stringify_class m
  | .Enum e => stringify_enum e
  | .Union u => stringify_union u
  | .Func f => stringify_function f
  | .Variable v => stringify_variable v

/-- `stringify_definitions`. -/
def stringify_definitions (definitions : List Definition) : String :=
  definitions.foldl (fun res d => res ++ stringify_definition d) ""

/-- `get_definitions_string`, the exposed entry point (Lua errors modelled
as the `Except` error branch). -/
def get_definitions_string (language : String) (captures : List Capture) :
    Except String String :=
  match extract_definitions language captures with
  | .error e => .error e
  | .ok definitions => .ok (stringify_definitions definitions)

/-! ### Predicates used by the statements -/

/-- Only `Func` and `Variable` records are ever pushed onto the top-level
`definitions` vector during the capture loop. -/
def top_defs_only (l : List Definition) : Prop :=
  ∀ d ∈ l, (match d with
    | Definition.Func _ => True
    | Definition.Variable _ => True
    | _ => False)

/-- The loop invariant of the builder state: the three container maps are
sorted by key, every stored record's name equals its key, and the top-level
vector holds only functions and variables. -/
def st_inv (st : ExtractState) : Prop :=
  keys_sorted st.class_def_map ∧ keys_sorted st.enum_def_map ∧
    keys_sorted st.union_def_map ∧
    names_ok (fun cd => cd.name) st.class_def_map ∧
    names_ok (fun ed => ed.name) st.enum_def_map ∧
    names_ok (fun ud => ud.name) st.union_def_map ∧
    top_defs_only st.definitions

/-- What one capture step is allowed to do to the state: preserve the
invariant, only append to `definitions`, and leave `captured_nodes` alone. -/
def step_facts (st st' : ExtractState) : Prop :=
  (st_inv st → st_inv st') ∧
    (∃ extra, st'.definitions = st.definitions ++ extra ∧ top_defs_only extra) ∧
    st'.captured_nodes = st.captured_nodes

/-- Names of class (and module) records in a definition list. -/
def class_names (ds : List Definition) : List String :=
  ds.filterMap (fun d => match d with
    | Definition.Class c => some c.name
    | Definition.Module c => some c.name
    | _ => none)

/-- Names of enum records in a definition list. -/
def enum_names (ds : List Definition) : List String :=
  ds.filterMap (fun d => match d with
    | Definition.Enum e => some e.name
    | _ => none)

/-- Names of union records in a definition list. -/
def union_names (ds : List Definition) : List String :=
  ds.filterMap (fun d => match d with
    | Definition.Union u => some u.name
    | _ => none)

/-- The identifiers a definition contributes to the outline: top-level
function and variable names, class names with their method and property
names, and enum/union container names (enum and union items excluded). -/
def definition_names : Definition → List String
  | Definition.Func f => [f.name]
  | Definition.Variable v => [v.name]
  | Definition.Class c =>
    c.name :: (c.methods.map (fun m => m.name) ++ c.properties.map (fun p => p.name))
  | Definition.Module c =>
    c.name :: (c.methods.map (fun m => m.name) ++ c.properties.map (fun p => p.name))
  | Definition.Enum e => [e.name]
  | Definition.Union u => [u.name]

def outline_names (ds : List Definition) : List String :=
  (ds.map definition_names).flatten

/-- The Go case rule on one name: empty (never case-checked) or
uppercase-first. -/
def go_name_ok (n : String) : Prop :=
  n = "" ∨ is_first_letter_uppercase n = true

def go_def_ok (d : Definition) : Prop :=
  ∀ n ∈ definition_names d, go_name_ok n

/-- The Go case rule on one class-map entry. -/
def go_class_entry (kv : String × RepoMap.Class) : Prop :=
  go_name_ok kv.1 ∧ (∀ m ∈ kv.2.methods, go_name_ok m.name) ∧
    (∀ p ∈ kv.2.properties, go_name_ok p.name)

/-- The Go case invariant over the builder state (enum/union items are not
tracked: the claim does not cover them). -/
def go_inv (st : ExtractState) : Prop :=
  (∀ d ∈ st.definitions, go_def_ok d) ∧
    (∀ kv ∈ st.class_def_map, go_class_entry kv) ∧
    (∀ kv ∈ st.enum_def_map, go_name_ok kv.1) ∧
    (∀ kv ∈ st.union_def_map, go_name_ok kv.1)

/-- No newline character in a string. -/
def str_nl_free (s : String) : Prop := Char.ofNat 10 ∉ s.data

def opt_nl_free : Option String → Prop
  | some s => str_nl_free s
  | none => True

def func_nl_free (f : Func) : Prop :=
  str_nl_free f.name ∧ str_nl_free f.params ∧ str_nl_free f.return_type ∧
    opt_nl_free f.accessibility_modifier

def var_nl_free (v : Variable) : Prop :=
  str_nl_free v.name ∧ str_nl_free v.value_type

def class_nl_free (c : Class) : Prop :=
  str_nl_free c.type_name ∧ str_nl_free c.name ∧
    (∀ m ∈ c.methods, func_nl_free m) ∧ (∀ p ∈ c.properties, var_nl_free p)

def enum_nl_free (e : Enum) : Prop :=
  str_nl_free e.name ∧ ∀ i ∈ e.items, var_nl_free i

def union_nl_free (u : Union) : Prop :=
  str_nl_free u.name ∧ ∀ i ∈ u.items, var_nl_free i

/-- All strings recorded in a definition are newline-free. -/
def def_nl_free : Definition → Prop
  | Definition.Func f => func_nl_free f
  | Definition.Variable v => var_nl_free v
  | Definition.Class c => class_nl_free c
  | Definition.Module c => class_nl_free c
  | Definition.Enum e => enum_nl_free e
  | Definition.Union u => union_nl_free u

/-- The string ends with a semicolon. -/
def ends_semi (s : String) : Prop := s.data.getLast? = some (Char.ofNat 59)

/-- The `"variable"`-capture reshaping test: the node's `value` field is an
`arrow_function`. -/
def variable_value_arrow (c : Capture) : Bool :=
  match child_by_field_name c.node "value" with
  | some value_node => value_node.kind == "arrow_function"
  | none => false

deriving instance DecidableEq for Except

/-! ### Concrete inputs used by witnesses and counterexamples -/

/-- A `class_assignment` capture as Go could produce it: property `foo`
(lowercase) assigned inside a class named `Bar`. -/
def capture_go_lower_prop : Capture :=
  { name := "class_assignment",
    node := .mk 1 "assignment" "foo = 1"
      (.cons (some "left") (leaf 2 "identifier" "foo") .nil),
    ancestors := [.mk 3 "class_definition" "class Bar"
      (.cons (some "name") (leaf 4 "identifier" "Bar") .nil)],
    prev_siblings := [] }

/-- A `class` capture naming `Foo`. -/
def capture_class_foo : Capture :=
  { name := "class",
    node := .mk 1 "class_definition" "class Foo"
      (.cons (some "name") (leaf 2 "identifier" "Foo") .nil),
    ancestors := [], prev_siblings := [] }

/-- A `method` capture named `Foo` with no ancestors: every container
resolver yields the empty string. -/
def capture_method_orphan : Capture :=
  { name := "method",
    node := .mk 1 "function_definition" "def Foo(): pass"
      (.cons (some "name") (leaf 2 "identifier" "Foo") .nil),
    ancestors := [], prev_siblings := [] }

/-- A top-level `function` capture with no return-type node. -/
def capture_elixir_function : Capture :=
  { name := "function",
    node := .mk 1 "call" "def foo do end"
      (.cons (some "name") (leaf 2 "identifier" "foo") .nil),
    ancestors := [], prev_siblings := [] }

/-- A `function` capture whose parameter list spans two source lines, so its
verbatim text contains a newline. -/
def capture_newline_params : Capture :=
  { name := "function",
    node := .mk 1 "function_definition" "def f(a,\n b): pass"
      (.cons (some "name") (leaf 2 "identifier" "f")
        (.cons (some "parameters") (leaf 3 "parameters" "(a,\n b)") .nil)),
    ancestors := [], prev_siblings := [] }

/-- A `function` capture with a single-line parameter list. -/
def capture_plain_function : Capture :=
  { name := "function",
    node := .mk 1 "function_definition" "def f(a, b): pass"
      (.cons (some "name") (leaf 2 "identifier" "f")
        (.cons (some "parameters") (leaf 3 "parameters" "(a, b)") .nil)),
    ancestors := [], prev_siblings := [] }

/-- A state that has already processed node id `5` under the `method`
capture kind. -/
def dedup_state : ExtractState :=
  { init_state with captured_nodes := [("method", [5])] }

/-- A `method` capture whose node id is `5`. -/
def capture_method_five : Capture :=
  { name := "method",
    node := .mk 5 "function_definition" "def Foo(): pass"
      (.cons (some "name") (leaf 6 "identifier" "Foo") .nil),
    ancestors := [], prev_siblings := [] }

/-- A `class` capture over the same node id `5`. -/
def capture_class_five : Capture :=
  { name := "class",
    node := .mk 5 "class_definition" "class Foo"
      (.cons (some "name") (leaf 6 "identifier" "Foo") .nil),
    ancestors := [], prev_siblings := [] }

/-- A Rust-style public class record. -/
def class_record_pub : RepoMap.Class :=
  { type_name := "class", name := "A", methods := [], properties := [],
    visibility_modifier := some "pub(crate)" }

/-! ### Lemmas on the sorted-map model -/

theorem chars_lt_irrefl : ∀ l : List Char, chars_lt l l = false
  | [] => rfl
  | a :: as => by
    simp only [chars_lt, lt_self_iff_false, if_false]
    exact chars_lt_irrefl as

theorem chars_lt_trans : ∀ {a b c : List Char},
    chars_lt a b = true → chars_lt b c = true → chars_lt a c = true := by
  intro a
  induction a with
  | nil =>
    intro b c h1 h2
    cases b with
    | nil => cases h1
    | cons y bs =>
      cases c with
      | nil => cases h2
      | cons z cs => rfl
  | cons x as ih =>
    intro b c h1 h2
    cases b with
    | nil => cases h1
    | cons y bs =>
      cases c with
      | nil => cases h2
      | cons z cs =>
        simp only [chars_lt] at h1 h2 ⊢
        split_ifs at h1 h2 ⊢ <;>
          first
            | rfl
            | omega
            | cases h1
            | cases h2
            | exact ih h1 h2

theorem chars_lt_conn : ∀ {a b : List Char},
    chars_lt a b = false → chars_lt b a = false → a = b := by
  intro a
  induction a with
  | nil =>
    intro b h1 h2
    cases b with
    | nil => rfl
    | cons y bs => cases h1
  | cons x as ih =>
    intro b h1 h2
    cases b with
    | nil => cases h2
    | cons y bs =>
      simp only [chars_lt] at h1 h2
      split_ifs at h1 h2 <;>
        first
          | cases h1
          | cases h2
          | omega
          | (have hn : x.toNat = y.toNat := by omega
             have hx : x = y := Char.ext (UInt32.ext hn)
             rw [hx, ih h1 h2])

theorem string_lt_irrefl (a : String) : string_lt a a = false :=
  chars_lt_irrefl a.data

theorem string_lt_trans {a b c : String} (h1 : string_lt a b = true)
    (h2 : string_lt b c = true) : string_lt a c = true :=
  chars_lt_trans h1 h2

theorem string_lt_conn {a b : String} (h1 : string_lt a b = false)
    (h2 : string_lt b a = false) : a = b :=
  String.ext (chars_lt_conn h1 h2)

theorem string_lt_asymm {a b : String} (h : string_lt a b = true) :
    string_lt b a = false := by
  cases hc : string_lt b a with
  | false => rfl
  | true =>
    have := string_lt_trans h hc
    rw [string_lt_irrefl] at this
    cases this

theorem string_lt_total {a b : String} (h1 : string_lt a b = false) (h2 : a ≠ b) :
    string_lt b a = true := by
  cases hc : string_lt b a with
  | true => rfl
  | false => exact absurd (string_lt_conn h1 hc) h2

theorem string_lt_ne {a b : String} (h : string_lt a b = true) : a ≠ b := by
  intro hab
  subst hab
  rw [string_lt_irrefl] at h
  cases h

theorem map_keys_nil {α : Type} : map_keys ([] : List (String × α)) = [] := rfl

theorem map_keys_cons {α : Type} {kv : String × α} {l : List (String × α)} :
    map_keys (kv :: l) = kv.1 :: map_keys l := rfl

theorem mem_keys_entry_or_insert {α : Type} {m : List (String × α)} {k x : String} {d : α}
    (hx : x ∈ map_keys (entry_or_insert m k d)) : x = k ∨ x ∈ map_keys m := by
  induction m with
  | nil =>
    simp only [entry_or_insert, map_keys_cons, map_keys_nil, List.mem_cons,
      List.not_mem_nil, or_false] at hx
    exact Or.inl hx
  | cons kv rest ih =>
    obtain ⟨k', v⟩ := kv
    simp only [entry_or_insert] at hx
    split at hx
    · simp only [map_keys_cons, List.mem_cons] at hx ⊢
      rcases hx with rfl | hx
      · exact Or.inl rfl
      · exact Or.inr hx
    · split at hx
      · exact Or.inr hx
      · simp only [map_keys_cons, List.mem_cons] at hx ⊢
        rcases hx with rfl | hx
        · exact Or.inr (Or.inl rfl)
        · rcases ih hx with h | h
          · exact Or.inl h
          · exact Or.inr (Or.inr h)

theorem keys_sorted_entry_or_insert {α : Type} {m : List (String × α)} {k : String} {d : α}
    (h : keys_sorted m) : keys_sorted (entry_or_insert m k d) := by
  induction m with
  | nil =>
    simp only [entry_or_insert, keys_sorted, map_keys_cons, map_keys_nil]
    exact List.pairwise_singleton _ _
  | cons kv rest ih =>
    obtain ⟨k', v⟩ := kv
    have hhead : ∀ x ∈ map_keys rest, string_lt k' x = true := by
      intro x hx
      exact (List.pairwise_cons.mp h).1 x hx
    have htail : keys_sorted rest := (List.pairwise_cons.mp h).2
    simp only [entry_or_insert]
    split
    · next hlt =>
      simp only [keys_sorted, map_keys_cons]
      refine List.pairwise_cons.mpr ⟨?_, h⟩
      intro x hx
      simp only [map_keys_cons, List.mem_cons] at hx
      rcases hx with rfl | hx
      · exact hlt
      · exact string_lt_trans hlt (hhead x hx)
    · split
      · exact h
      · next h1 h2 =>
        have h1f : string_lt k k' = false := by
          cases hx : string_lt k k' with
          | false => rfl
          | true => exact absurd hx h1
        have hk : string_lt k' k = true :=
          string_lt_total h1f h2
        simp only [keys_sorted, map_keys_cons]
        refine List.pairwise_cons.mpr ⟨?_, ih htail⟩
        intro x hx
        rcases mem_keys_entry_or_insert hx with rfl | hx'
        · exact hk
        · exact hhead x hx'

theorem entry_or_insert_of_mem_keys {α : Type} {m : List (String × α)} {k : String} {d : α}
    (hs : keys_sorted m) (hk : k ∈ map_keys m) : entry_or_insert m k d = m := by
  induction m with
  | nil => simp only [map_keys_nil, List.not_mem_nil] at hk
  | cons kv rest ih =>
    obtain ⟨k', v⟩ := kv
    have hhead : ∀ x ∈ map_keys rest, string_lt k' x = true := by
      intro x hx
      exact (List.pairwise_cons.mp hs).1 x hx
    have htail : keys_sorted rest := (List.pairwise_cons.mp hs).2
    simp only [map_keys_cons, List.mem_cons] at hk
    simp only [entry_or_insert]
    rcases hk with rfl | hk
    · rw [if_neg (by rw [string_lt_irrefl k]; exact fun h => Bool.false_ne_true h),
        if_pos rfl]
    · have hlt : string_lt k' k = true := hhead k hk
      rw [if_neg (by rw [string_lt_asymm hlt]; exact fun h => Bool.false_ne_true h),
        if_neg (fun hcon => string_lt_ne hlt hcon.symm)]
      rw [ih htail hk]

theorem map_keys_map_modify {α : Type} {m : List (String × α)} {k : String} {g : α → α} :
    map_keys (map_modify m k g) = map_keys m := by
  induction m with
  | nil => rfl
  | cons kv rest ih =>
    simp only [map_modify, List.map_cons] at ih ⊢
    split <;> simp only [map_keys_cons, ih]

theorem keys_sorted_map_modify {α : Type} {m : List (String × α)} {k : String} {g : α → α}
    (h : keys_sorted m) : keys_sorted (map_modify m k g) := by
  unfold keys_sorted
  rw [map_keys_map_modify]
  exact h

theorem names_ok_entry_or_insert {α : Type} {f : α → String} {m : List (String × α)}
    {k : String} {d : α} (h : names_ok f m) (hd : f d = k) :
    names_ok f (entry_or_insert m k d) := by
  induction m with
  | nil =>
    intro kv hkv
    simp only [entry_or_insert, List.mem_cons, List.not_mem_nil, or_false] at hkv
    subst hkv
    exact hd
  | cons kv' rest ih =>
    obtain ⟨k', v⟩ := kv'
    have hhead : f v = k' := h (k', v) (List.mem_cons_self _ _)
    have htail : names_ok f rest := fun kv hkv => h kv (List.mem_cons_of_mem _ hkv)
    simp only [entry_or_insert]
    split
    · intro kv hkv
      simp only [List.mem_cons] at hkv
      rcases hkv with rfl | rfl | hkv
      · exact hd
      · exact hhead
      · exact htail _ hkv
    · split
      · exact h
      · intro kv hkv
        simp only [List.mem_cons] at hkv
        rcases hkv with rfl | hkv
        · exact hhead
        · exact ih htail _ hkv

theorem names_ok_map_modify {α : Type} {f : α → String} {m : List (String × α)}
    {k : String} {g : α → α} (h : names_ok f m) (hg : ∀ a, f (g a) = f a) :
    names_ok f (map_modify m k g) := by
  intro kv hkv
  simp only [map_modify, List.mem_map] at hkv
  obtain ⟨kv₀, hkv₀, hkv⟩ := hkv
  by_cases hk : kv₀.1 = k
  · rw [if_pos hk] at hkv
    subst hkv
    simpa only [hg] using h kv₀ hkv₀
  · rw [if_neg hk] at hkv
    subst hkv
    exact h kv₀ hkv₀

theorem mem_entry_or_insert {α : Type} {m : List (String × α)} {k : String} {d : α}
    {kv : String × α} (hkv : kv ∈ entry_or_insert m k d) : kv ∈ m ∨ kv = (k, d) := by
  induction m with
  | nil =>
    simp only [entry_or_insert, List.mem_cons, List.not_mem_nil, or_false] at hkv
    exact Or.inr hkv
  | cons kv' rest ih =>
    obtain ⟨k', v⟩ := kv'
    simp only [entry_or_insert] at hkv
    split at hkv
    · simp only [List.mem_cons] at hkv
      rcases hkv with rfl | hkv
      · exact Or.inr rfl
      · exact Or.inl (List.mem_cons.mpr hkv)
    · split at hkv
      · exact Or.inl hkv
      · simp only [List.mem_cons] at hkv
        rcases hkv with rfl | hkv
        · exact Or.inl (List.mem_cons_self _ _)
        · rcases ih hkv with h | h
          · exact Or.inl (List.mem_cons_of_mem _ h)
          · exact Or.inr h

theorem mem_map_modify {α : Type} {m : List (String × α)} {k : String} {g : α → α}
    {kv : String × α} (hkv : kv ∈ map_modify m k g) :
    ∃ kv₀ ∈ m, kv = kv₀ ∨ kv = (kv₀.1, g kv₀.2) := by
  simp only [map_modify, List.mem_map] at hkv
  obtain ⟨kv₀, hkv₀, hkv⟩ := hkv
  refine ⟨kv₀, hkv₀, ?_⟩
  by_cases hk : kv₀.1 = k
  · rw [if_pos hk] at hkv
    exact Or.inr hkv.symm
  · rw [if_neg hk] at hkv
    exact Or.inl hkv.symm

theorem keys_sorted_nodup {α : Type} {m : List (String × α)} (h : keys_sorted m) :
    (map_keys m).Nodup :=
  h.imp string_lt_ne

theorem node_in_push_captured (m : List (String × List Nat)) (k : String) (i : Nat) :
    node_in_captured (push_captured m k i) k i = true := by
  induction m with
  | nil => simp [push_captured, node_in_captured, map_lookup]
  | cons kv rest ih =>
    obtain ⟨k', v⟩ := kv
    simp only [push_captured]
    split
    · next hk => simp [node_in_captured, map_lookup, hk]
    · next hk => simpa [node_in_captured, map_lookup, hk] using ih

/-! ### Step facts: what one capture can do to the state -/

theorem top_defs_only_nil : top_defs_only [] := by
  intro d hd
  cases hd

theorem top_defs_only_append {a b : List Definition}
    (ha : top_defs_only a) (hb : top_defs_only b) : top_defs_only (a ++ b) := by
  intro d hd
  rcases List.mem_append.mp hd with h | h
  · exact ha d h
  · exact hb d h

theorem step_facts_rfl {st : ExtractState} : step_facts st st :=
  ⟨id, ⟨[], by simp, top_defs_only_nil⟩, rfl⟩

theorem step_facts_accrete_class {language class_name : String} {g : Class → Class}
    (hg : ∀ cd, (g cd).name = cd.name) (st : ExtractState) :
    step_facts st { st with class_def_map :=
      (map_modify (ensure_class_def language class_name st.class_def_map) class_name g) } := by
  refine ⟨?_, ⟨[], by simp, top_defs_only_nil⟩, rfl⟩
  intro hinv
  obtain ⟨h1, h2, h3, h4, h5, h6, h7⟩ := hinv
  refine ⟨?_, h2, h3, ?_, h5, h6, h7⟩
  · exact keys_sorted_map_modify (keys_sorted_entry_or_insert h1)
  · exact names_ok_map_modify (names_ok_entry_or_insert h4 rfl) hg

theorem step_facts_ensure_module {name : String} (st : ExtractState) :
    step_facts st { st with class_def_map := ensure_module_def name st.class_def_map } := by
  refine ⟨?_, ⟨[], by simp, top_defs_only_nil⟩, rfl⟩
  intro hinv
  obtain ⟨h1, h2, h3, h4, h5, h6, h7⟩ := hinv
  exact ⟨keys_sorted_entry_or_insert h1, h2, h3, names_ok_entry_or_insert h4 rfl, h5, h6, h7⟩

theorem step_facts_accrete_enum {enum_name : String} {g : Enum → Enum}
    (hg : ∀ ed, (g ed).name = ed.name) (st : ExtractState) :
    step_facts st { st with enum_def_map :=
      (map_modify (ensure_enum_def enum_name st.enum_def_map) enum_name g) } := by
  refine ⟨?_, ⟨[], by simp, top_defs_only_nil⟩, rfl⟩
  intro hinv
  obtain ⟨h1, h2, h3, h4, h5, h6, h7⟩ := hinv
  refine ⟨h1, ?_, h3, h4, ?_, h6, h7⟩
  · exact keys_sorted_map_modify (keys_sorted_entry_or_insert h2)
  · exact names_ok_map_modify (names_ok_entry_or_insert h5 rfl) hg

theorem step_facts_accrete_union {union_name : String} {g : Union → Union}
    (hg : ∀ ud, (g ud).name = ud.name) (st : ExtractState) :
    step_facts st { st with union_def_map :=
      (map_modify (ensure_union_def union_name st.union_def_map) union_name g) } := by
  refine ⟨?_, ⟨[], by simp, top_defs_only_nil⟩, rfl⟩
  intro hinv
  obtain ⟨h1, h2, h3, h4, h5, h6, h7⟩ := hinv
  refine ⟨h1, h2, ?_, h4, h5, ?_, h7⟩
  · exact keys_sorted_map_modify (keys_sorted_entry_or_insert h3)
  · exact names_ok_map_modify (names_ok_entry_or_insert h6 rfl) hg

theorem step_facts_push_func {f : Func} (st : ExtractState) :
    step_facts st { st with definitions := st.definitions ++ [Definition.Func f] } := by
  refine ⟨?_, ⟨[Definition.Func f], rfl, ?_⟩, rfl⟩
  · intro hinv
    obtain ⟨h1, h2, h3, h4, h5, h6, h7⟩ := hinv
    refine ⟨h1, h2, h3, h4, h5, h6, ?_⟩
    refine top_defs_only_append h7 ?_
    intro d hd
    simp only [List.mem_cons, List.not_mem_nil, or_false] at hd
    subst hd
    trivial
  · intro d hd
    simp only [List.mem_cons, List.not_mem_nil, or_false] at hd
    subst hd
    trivial

theorem step_facts_push_variable {v : Variable} (st : ExtractState) :
    step_facts st { st with definitions := st.definitions ++ [Definition.Variable v] } := by
  refine ⟨?_, ⟨[Definition.Variable v], rfl, ?_⟩, rfl⟩
  · intro hinv
    obtain ⟨h1, h2, h3, h4, h5, h6, h7⟩ := hinv
    refine ⟨h1, h2, h3, h4, h5, h6, ?_⟩
    refine top_defs_only_append h7 ?_
    intro d hd
    simp only [List.mem_cons, List.not_mem_nil, or_false] at hd
    subst hd
    trivial
  · intro d hd
    simp only [List.mem_cons, List.not_mem_nil, or_false] at hd
    subst hd
    trivial

theorem step_facts_ite_both {st t u : ExtractState} {P : Prop} [Decidable P]
    (ht : step_facts st t) (hu : step_facts st u) : step_facts st (if P then t else u) := by
  by_cases hp : P
  · rw [if_pos hp]
    exact ht
  · rw [if_neg hp]
    exact hu

theorem process_class_step_facts {language : String} {st : ExtractState} {name : String}
    {c : Capture} : step_facts st (process_class language st name c) := by
  delta process_class
  refine step_facts_ite_both (step_facts_ite_both step_facts_rfl ?_) step_facts_rfl
  refine step_facts_accrete_class ?_ st
  intro cd
  rfl

theorem process_module_step_facts {st : ExtractState} {name : String} :
    step_facts st (process_module st name) := by
  delta process_module
  exact step_facts_ite_both (step_facts_ensure_module st) step_facts_rfl

theorem process_enum_item_step_facts {language : String} {st : ExtractState} {name : String}
    {c : Capture} : step_facts st (process_enum_item language st name c) := by
  delta process_enum_item
  refine step_facts_ite_both step_facts_rfl
    (step_facts_ite_both step_facts_rfl (step_facts_ite_both step_facts_rfl ?_))
  refine step_facts_accrete_enum ?_ st
  intro ed
  rfl

theorem process_union_item_step_facts {language : String} {st : ExtractState} {name : String}
    {c : Capture} : step_facts st (process_union_item language st name c) := by
  delta process_union_item
  refine step_facts_ite_both step_facts_rfl (step_facts_ite_both step_facts_rfl ?_)
  refine step_facts_accrete_union ?_ st
  intro ud
  rfl

theorem process_method_step_facts {language : String} {st : ExtractState} {name : String}
    {c : Capture} : step_facts st (process_method language st name c) := by
  delta process_method
  refine step_facts_ite_both step_facts_rfl (step_facts_ite_both step_facts_rfl
    (step_facts_ite_both step_facts_rfl (step_facts_ite_both step_facts_rfl
      (step_facts_ite_both step_facts_rfl (step_facts_ite_both step_facts_rfl
        (step_facts_ite_both step_facts_rfl (step_facts_ite_both step_facts_rfl
          (step_facts_ite_both step_facts_rfl ?_))))))))
  refine step_facts_accrete_class ?_ st
  intro cd
  rfl

theorem process_class_assignment_step_facts {language : String} {st : ExtractState}
    {c : Capture} : step_facts st (process_class_assignment language st c) := by
  delta process_class_assignment
  refine step_facts_ite_both step_facts_rfl (step_facts_ite_both step_facts_rfl
    (step_facts_ite_both step_facts_rfl (step_facts_ite_both step_facts_rfl
      (step_facts_ite_both step_facts_rfl ?_))))
  refine step_facts_accrete_class ?_ st
  intro cd
  rfl

theorem process_class_variable_step_facts {language : String} {st : ExtractState}
    {name : String} {c : Capture} :
    step_facts st (process_class_variable language st name c) := by
  delta process_class_variable
  refine step_facts_ite_both step_facts_rfl (step_facts_ite_both step_facts_rfl
    (step_facts_ite_both step_facts_rfl (step_facts_ite_both step_facts_rfl
      (step_facts_ite_both step_facts_rfl (step_facts_ite_both step_facts_rfl
        (step_facts_ite_both step_facts_rfl (step_facts_ite_both step_facts_rfl
          (step_facts_ite_both step_facts_rfl ?_))))))))
  refine step_facts_accrete_class ?_ st
  intro cd
  rfl

theorem process_function_step_facts {language : String} {st : ExtractState}
    {name : String} {c : Capture} :
    step_facts st (process_function language st name c) := by
  delta process_function
  exact step_facts_ite_both step_facts_rfl (step_facts_ite_both step_facts_rfl
    (step_facts_ite_both step_facts_rfl (step_facts_ite_both step_facts_rfl
      (step_facts_ite_both step_facts_rfl (step_facts_ite_both step_facts_rfl
        (step_facts_ite_both step_facts_rfl (step_facts_ite_both step_facts_rfl
          (step_facts_ite_both step_facts_rfl (step_facts_ite_both step_facts_rfl
            (step_facts_push_func st))))))))))

theorem process_assignment_step_facts {language : String} {st : ExtractState}
    {c : Capture} : step_facts st (process_assignment language st c) := by
  delta process_assignment
  exact step_facts_ite_both step_facts_rfl (step_facts_ite_both step_facts_rfl
    (step_facts_ite_both step_facts_rfl (step_facts_ite_both step_facts_rfl
      (step_facts_ite_both step_facts_rfl (step_facts_ite_both step_facts_rfl
        (step_facts_push_variable st))))))

theorem process_variable_tail_step_facts {language : String} {st : ExtractState}
    {name : String} {c : Capture} :
    step_facts st (process_variable_tail language st name c) := by
  delta process_variable_tail
  exact step_facts_ite_both step_facts_rfl (step_facts_ite_both step_facts_rfl
    (step_facts_push_variable st))

theorem process_variable_step_facts {language : String} {st : ExtractState}
    {name : String} {c : Capture} :
    step_facts st (process_variable language st name c) := by
  delta process_variable
  refine step_facts_ite_both step_facts_rfl (step_facts_ite_both step_facts_rfl
    (step_facts_ite_both step_facts_rfl (step_facts_ite_both step_facts_rfl
      (step_facts_ite_both step_facts_rfl (step_facts_ite_both step_facts_rfl ?_)))))
  cases child_by_field_name c.node "value" with
  | none => exact process_variable_tail_step_facts
  | some value_node =>
    show step_facts st (if value_node.kind = "arrow_function" then _ else _)
    exact step_facts_ite_both (step_facts_push_func st) process_variable_tail_step_facts

theorem process_capture_step_facts {language : String} {st : ExtractState} {c : Capture} :
    step_facts st (process_capture language st c) := by
  delta process_capture
  split
  · exact process_class_step_facts
  · exact process_module_step_facts
  · exact process_enum_item_step_facts
  · exact process_union_item_step_facts
  · exact process_method_step_facts
  · exact process_class_assignment_step_facts
  · exact process_class_variable_step_facts
  · exact process_function_step_facts
  · exact process_function_step_facts
  · exact process_assignment_step_facts
  · exact process_variable_step_facts
  · exact step_facts_rfl

/-! ### Loop-level lemmas -/

theorem step_capture_of_dup {language : String} {st : ExtractState} {c : Capture}
    (hd : node_in_captured st.captured_nodes c.name c.node.id = true) :
    step_capture language st c = st := by
  delta step_capture
  rw [if_pos hd]

theorem step_capture_of_fresh {language : String} {st : ExtractState} {c : Capture}
    (hd : node_in_captured st.captured_nodes c.name c.node.id = false) :
    step_capture language st c =
      process_capture language
        { st with captured_nodes := push_captured st.captured_nodes c.name c.node.id } c := by
  delta step_capture
  rw [if_neg (by simp [hd])]

theorem process_capture_captured_nodes {language : String} {st : ExtractState} {c : Capture} :
    (process_capture language st c).captured_nodes = st.captured_nodes :=
  process_capture_step_facts.2.2

theorem step_capture_inv {language : String} {st : ExtractState} {c : Capture}
    (h : st_inv st) : st_inv (step_capture language st c) := by
  delta step_capture
  by_cases hd : node_in_captured st.captured_nodes c.name c.node.id = true
  · rw [if_pos hd]
    exact h
  · rw [if_neg hd]
    exact process_capture_step_facts.1 h

theorem step_capture_defs {language : String} {st : ExtractState} {c : Capture} :
    ∃ extra, (step_capture language st c).definitions = st.definitions ++ extra ∧
      top_defs_only extra := by
  delta step_capture
  by_cases hd : node_in_captured st.captured_nodes c.name c.node.id = true
  · rw [if_pos hd]
    exact ⟨[], (List.append_nil _).symm, top_defs_only_nil⟩
  · rw [if_neg hd]
    exact process_capture_step_facts.2.1

theorem foldl_step_inv {language : String} (caps : List Capture) (st : ExtractState)
    (h : st_inv st) : st_inv (caps.foldl (step_capture language) st) := by
  induction caps generalizing st with
  | nil => exact h
  | cons c rest ih => exact ih _ (step_capture_inv h)

theorem init_state_inv : st_inv init_state := by
  refine ⟨List.Pairwise.nil, List.Pairwise.nil, List.Pairwise.nil, ?_, ?_, ?_, top_defs_only_nil⟩
  all_goals intro kv hkv; cases hkv

theorem run_captures_inv (language : String) (captures : List Capture) :
    st_inv (run_captures language captures) :=
  foldl_step_inv captures init_state init_state_inv

theorem foldl_step_defs_mono {language : String} (caps : List Capture) (st : ExtractState) :
    st.definitions <+: (caps.foldl (step_capture language) st).definitions := by
  induction caps generalizing st with
  | nil => exact List.prefix_rfl
  | cons c rest ih =>
    refine List.IsPrefix.trans ?_ (ih (step_capture language st c))
    obtain ⟨extra, he, _⟩ := @step_capture_defs language st c
    exact ⟨extra, he.symm⟩

theorem run_captures_take_mono (language : String) (captures : List Capture) (n : Nat) :
    (run_captures language (captures.take n)).definitions <+:
      (run_captures language captures).definitions := by
  have hsplit : captures.take n ++ captures.drop n = captures := List.take_append_drop n captures
  have := @foldl_step_defs_mono language (captures.drop n)
    (run_captures language (captures.take n))
  unfold run_captures at this ⊢
  rwa [← List.foldl_append, hsplit] at this

/-! ### Supporting facts about the registry -/

theorem get_definitions_query_ok {language : String}
    (h : (get_ts_language language).isSome = true) :
    ∃ q, get_definitions_query language = .ok q := by
  unfold get_ts_language at h
  split at h
  all_goals
    first
      | exact ⟨_, rfl⟩
      | simp at h

/-! ### The claims -/

/-- C1: for every source text (hence every capture stream), calling the
outline operation with a language tag outside the sixteen supported tags
returns the empty string and does not signal an error. -/
theorem c1_unknown_language_yields_empty (language : String)
    (h : get_ts_language language = none) (captures : List Capture) :
    get_definitions_string language captures = .ok "" := by
  simp only [get_definitions_string, extract_definitions, h]
  rfl

theorem c1_witness :
    get_ts_language "unknown" = none ∧
      get_definitions_string "unknown" [] = .ok "" :=
  ⟨rfl, c1_unknown_language_yields_empty "unknown" rfl []⟩

/-- C9: the outline entry point always returns a successful result: tags
with no grammar return the empty definition list before the query is
requested, the only internal error value (`Unsupported language`) can only
arise for such tags, and every call to `get_definitions_string` is `ok`.
(The pattern-script compilation panic is a `panic!`, not the error branch,
and is not modelled.) -/
theorem c9_entry_point_never_errors :
    (∀ language captures, get_ts_language language = none →
        extract_definitions language captures = .ok []) ∧
    (∀ language e, get_definitions_query language = .error e →
        get_ts_language language = none) ∧
    (∀ language captures, ∃ s, get_definitions_string language captures = .ok s) := by
  refine ⟨?_, ?_, ?_⟩
  · intro language captures h
    simp only [extract_definitions, h]
  · intro language e he
    cases hgt : get_ts_language language with
    | none => rfl
    | some lf =>
      obtain ⟨q, hq⟩ := get_definitions_query_ok (by rw [hgt]; rfl)
      rw [hq] at he
      cases he
  · intro language captures
    cases hgt : get_ts_language language with
    | none =>
      refine ⟨"", ?_⟩
      simp only [get_definitions_string, extract_definitions, hgt]
      rfl
    | some lf =>
      obtain ⟨q, hq⟩ := get_definitions_query_ok (by rw [hgt]; rfl)
      refine ⟨stringify_definitions (finalize language (run_captures language captures)), ?_⟩
      simp only [get_definitions_string, extract_definitions, hgt, hq]

theorem c9_witness :
    (∃ s, get_definitions_string "rust" [] = .ok s) ∧
      get_definitions_query "zzz" = .error "Unsupported language: zzz" ∧
      get_ts_language "zzz" = none :=
  ⟨c9_entry_point_never_errors.2.2 "rust" [], rfl,
    c9_entry_point_never_errors.2.1 "zzz" "Unsupported language: zzz" rfl⟩

/-- C3: a capture whose node id was already processed under the same capture
kind is dropped (the state is returned unchanged); a capture whose node id
is not yet recorded under its own kind — even if recorded under a different
kind — is not dropped: the loop records the id under the kind and runs the
capture body. -/
theorem c3_per_kind_node_dedup :
    (∀ language st c, node_in_captured st.captured_nodes c.name c.node.id = true →
        step_capture language st c = st) ∧
    (∀ language st c, node_in_captured st.captured_nodes c.name c.node.id = false →
        step_capture language st c =
          process_capture language
            { st with captured_nodes := push_captured st.captured_nodes c.name c.node.id } c ∧
        node_in_captured (step_capture language st c).captured_nodes c.name c.node.id = true) := by
  constructor
  · intro language st c h
    exact step_capture_of_dup h
  · intro language st c h
    refine ⟨step_capture_of_fresh h, ?_⟩
    rw [step_capture_of_fresh h, process_capture_captured_nodes]
    exact node_in_push_captured st.captured_nodes c.name c.node.id

theorem c3_witness :
    step_capture "python" dedup_state capture_method_five = dedup_state ∧
      node_in_captured dedup_state.captured_nodes capture_class_five.name
        capture_class_five.node.id = false ∧
      node_in_captured (step_capture "python" dedup_state capture_class_five).captured_nodes
        capture_class_five.name capture_class_five.node.id = true :=
  ⟨c3_per_kind_node_dedup.1 "python" dedup_state capture_method_five (by decide),
    by decide,
    (c3_per_kind_node_dedup.2 "python" dedup_state capture_class_five (by decide)).2⟩

/-- C5: in the final class pass, when the language is `rust` a class record
is included in the output if and only if its recorded visibility modifier is
present and contains the substring `pub`; for every other language every
class record in the map is included. -/
theorem c5_rust_class_visibility_filter (language : String)
    (m : List (String × RepoMap.Class)) (k : String) (cls : RepoMap.Class)
    (hm : (k, cls) ∈ m) :
    Definition.Class cls ∈ finalize_classes language m ↔
      (language = "rust" → ∃ vm, cls.visibility_modifier = some vm ∧
        contains_substr vm "pub" = true) := by
  constructor
  · intro hmem hrust
    subst hrust
    simp only [finalize_classes, List.mem_filterMap] at hmem
    obtain ⟨kv, hkv, hf⟩ := hmem
    unfold finalize_classes_entry at hf
    rw [if_pos rfl] at hf
    cases hvm : kv.2.visibility_modifier with
    | none =>
      simp only [hvm] at hf
      cases hf
    | some vm =>
      simp only [hvm] at hf
      by_cases hc : contains_substr vm "pub" = true
      · rw [if_pos hc] at hf
        injection hf with hf
        injection hf with hf
        rw [← hf, hvm]
        exact ⟨vm, rfl, hc⟩
      · rw [if_neg hc] at hf
        cases hf
  · intro hcond
    simp only [finalize_classes, List.mem_filterMap]
    refine ⟨(k, cls), hm, ?_⟩
    unfold finalize_classes_entry
    by_cases hrust : language = "rust"
    · rw [if_pos hrust]
      obtain ⟨vm, hvm, hc⟩ := hcond hrust
      simp only [hvm, hc, if_pos]
    · rw [if_neg hrust]

theorem c5_witness :
    Definition.Class class_record_pub ∈ finalize_classes "rust" [("A", class_record_pub)] ∧
      ¬ Definition.Class { class_record_pub with visibility_modifier := none } ∈
        finalize_classes "rust" [("A", { class_record_pub with visibility_modifier := none })] := by
  constructor
  · exact (c5_rust_class_visibility_filter "rust" [("A", class_record_pub)] "A"
      class_record_pub (by simp)).mpr (fun _ => ⟨"pub(crate)", rfl, by decide⟩)
  · intro hmem
    have := (c5_rust_class_visibility_filter "rust"
      [("A", { class_record_pub with visibility_modifier := none })] "A"
      { class_record_pub with visibility_modifier := none } (by simp)).mp hmem rfl
    obtain ⟨vm, hvm, _⟩ := this
    cases hvm

/-! ### Name collections of the finalize passes -/

theorem class_names_append {a b : List Definition} :
    class_names (a ++ b) = class_names a ++ class_names b :=
  List.filterMap_append a b _

theorem enum_names_append {a b : List Definition} :
    enum_names (a ++ b) = enum_names a ++ enum_names b :=
  List.filterMap_append a b _

theorem union_names_append {a b : List Definition} :
    union_names (a ++ b) = union_names a ++ union_names b :=
  List.filterMap_append a b _

theorem class_names_of_top {l : List Definition} (h : top_defs_only l) :
    class_names l = [] := by
  induction l with
  | nil => rfl
  | cons d rest ih =>
    have hd := h d (List.mem_cons_self _ _)
    have ht : top_defs_only rest := fun x hx => h x (List.mem_cons_of_mem _ hx)
    cases d <;> simp only [class_names, List.filterMap_cons] <;>
      first
        | exact ih ht
        | cases hd

theorem enum_names_of_top {l : List Definition} (h : top_defs_only l) :
    enum_names l = [] := by
  induction l with
  | nil => rfl
  | cons d rest ih =>
    have hd := h d (List.mem_cons_self _ _)
    have ht : top_defs_only rest := fun x hx => h x (List.mem_cons_of_mem _ hx)
    cases d <;> simp only [enum_names, List.filterMap_cons] <;>
      first
        | exact ih ht
        | cases hd

theorem union_names_of_top {l : List Definition} (h : top_defs_only l) :
    union_names l = [] := by
  induction l with
  | nil => rfl
  | cons d rest ih =>
    have hd := h d (List.mem_cons_self _ _)
    have ht : top_defs_only rest := fun x hx => h x (List.mem_cons_of_mem _ hx)
    cases d <;> simp only [union_names, List.filterMap_cons] <;>
      first
        | exact ih ht
        | cases hd

theorem finalize_classes_entry_eq (language : String) (kv : String × RepoMap.Class) :
    finalize_classes_entry language kv = none ∨
      finalize_classes_entry language kv = some (Definition.Class kv.2) := by
  unfold finalize_classes_entry
  split
  · cases hvm : kv.2.visibility_modifier with
    | none => exact Or.inl rfl
    | some vm =>
      show (if contains_substr vm "pub" = true then some (Definition.Class kv.2) else none)
          = none ∨
        (if contains_substr vm "pub" = true then some (Definition.Class kv.2) else none)
          = some (Definition.Class kv.2)
      by_cases hc : contains_substr vm "pub" = true
      · rw [if_pos hc]
        exact Or.inr rfl
      · rw [if_neg hc]
        exact Or.inl rfl
  · exact Or.inr rfl

theorem class_names_finalize_classes {language : String}
    {m : List (String × RepoMap.Class)} (h : names_ok (fun cd => cd.name) m) :
    List.Sublist (class_names (finalize_classes language m)) (map_keys m) := by
  induction m with
  | nil => exact List.Sublist.refl _
  | cons kv rest ih =>
    have hhead : kv.2.name = kv.1 := h kv (List.mem_cons_self _ _)
    have ht : names_ok (fun cd => cd.name) rest := fun x hx => h x (List.mem_cons_of_mem _ hx)
    simp only [finalize_classes, List.filterMap_cons] at ih ⊢
    rcases finalize_classes_entry_eq language kv with hf | hf <;> simp only [hf]
    · simp only [map_keys_cons]
      exact (ih ht).cons kv.1
    · simp only [class_names, List.filterMap_cons, map_keys_cons, hhead]
      exact (ih ht).cons₂ kv.1

theorem enum_names_of_map {m : List (String × RepoMap.Enum)}
    (h : names_ok (fun ed => ed.name) m) :
    enum_names (m.map (fun kv => Definition.Enum kv.2)) = map_keys m := by
  induction m with
  | nil => rfl
  | cons kv rest ih =>
    have hhead : kv.2.name = kv.1 := h kv (List.mem_cons_self _ _)
    have ht : names_ok (fun ed => ed.name) rest := fun x hx => h x (List.mem_cons_of_mem _ hx)
    simp only [List.map_cons, enum_names, List.filterMap_cons, map_keys_cons] at ih ⊢
    rw [ih ht, hhead]

theorem union_names_of_map {m : List (String × RepoMap.Union)}
    (h : names_ok (fun ud => ud.name) m) :
    union_names (m.map (fun kv => Definition.Union kv.2)) = map_keys m := by
  induction m with
  | nil => rfl
  | cons kv rest ih =>
    have hhead : kv.2.name = kv.1 := h kv (List.mem_cons_self _ _)
    have ht : names_ok (fun ud => ud.name) rest := fun x hx => h x (List.mem_cons_of_mem _ hx)
    simp only [List.map_cons, union_names, List.filterMap_cons, map_keys_cons] at ih ⊢
    rw [ih ht, hhead]

theorem class_names_of_enum_map {m : List (String × RepoMap.Enum)} :
    class_names (m.map (fun kv => Definition.Enum kv.2)) = [] := by
  induction m with
  | nil => rfl
  | cons kv rest ih => simpa [class_names, List.filterMap_cons] using ih

theorem class_names_of_union_map {m : List (String × RepoMap.Union)} :
    class_names (m.map (fun kv => Definition.Union kv.2)) = [] := by
  induction m with
  | nil => rfl
  | cons kv rest ih => simpa [class_names, List.filterMap_cons] using ih

theorem enum_names_of_finalize_classes {language : String}
    {m : List (String × RepoMap.Class)} :
    enum_names (finalize_classes language m) = [] := by
  induction m with
  | nil => rfl
  | cons kv rest ih =>
    simp only [finalize_classes, List.filterMap_cons] at ih ⊢
    rcases finalize_classes_entry_eq language kv with hf | hf <;> simp only [hf]
    · exact ih
    · simpa [enum_names, List.filterMap_cons] using ih

theorem enum_names_of_union_map {m : List (String × RepoMap.Union)} :
    enum_names (m.map (fun kv => Definition.Union kv.2)) = [] := by
  induction m with
  | nil => rfl
  | cons kv rest ih => simpa [enum_names, List.filterMap_cons] using ih

theorem union_names_of_finalize_classes {language : String}
    {m : List (String × RepoMap.Class)} :
    union_names (finalize_classes language m) = [] := by
  induction m with
  | nil => rfl
  | cons kv rest ih =>
    simp only [finalize_classes, List.filterMap_cons] at ih ⊢
    rcases finalize_classes_entry_eq language kv with hf | hf <;> simp only [hf]
    · exact ih
    · simpa [union_names, List.filterMap_cons] using ih

theorem union_names_of_enum_map {m : List (String × RepoMap.Enum)} :
    union_names (m.map (fun kv => Definition.Enum kv.2)) = [] := by
  induction m with
  | nil => rfl
  | cons kv rest ih => simpa [union_names, List.filterMap_cons] using ih

/-- The shape of a successful extraction for a supported language. -/
theorem extract_definitions_eq (language : String) (captures : List Capture)
    (hsupported : (get_ts_language language).isSome = true) :
    extract_definitions language captures =
      .ok (finalize language (run_captures language captures)) := by
  cases hgt : get_ts_language language with
  | none => rw [hgt] at hsupported; cases hsupported
  | some lf =>
    obtain ⟨q, hq⟩ := get_definitions_query_ok hsupported
    simp only [extract_definitions, hgt, hq]

/-- C2: each class, enum, and union qualified name appears at most once in
one extraction's output, and the fetch-or-create insertion merges into an
existing record instead of duplicating: on a key already present the keyed
map is returned unchanged. -/
theorem c2_container_names_unique :
    (∀ language captures ds, extract_definitions language captures = .ok ds →
        (class_names ds).Nodup ∧ (enum_names ds).Nodup ∧ (union_names ds).Nodup) ∧
    (∀ (language name : String) (m : List (String × RepoMap.Class)),
        keys_sorted m → name ∈ map_keys m → ensure_class_def language name m = m) := by
  constructor
  · intro language captures ds h
    cases hgt : get_ts_language language with
    | none =>
      simp only [extract_definitions, hgt] at h
      injection h with h
      subst h
      exact ⟨List.nodup_nil, List.nodup_nil, List.nodup_nil⟩
    | some lf =>
      rw [extract_definitions_eq language captures (by rw [hgt]; rfl)] at h
      injection h with h
      subst h
      obtain ⟨hs1, hs2, hs3, hn1, hn2, hn3, htop⟩ := run_captures_inv language captures
      unfold finalize
      refine ⟨?_, ?_, ?_⟩
      · rw [class_names_append, class_names_append, class_names_append,
          class_names_of_top htop, class_names_of_enum_map, class_names_of_union_map]
        simp only [List.nil_append, List.append_nil]
        exact (class_names_finalize_classes hn1).nodup (keys_sorted_nodup hs1)
      · rw [enum_names_append, enum_names_append, enum_names_append,
          enum_names_of_top htop, enum_names_of_finalize_classes,
          enum_names_of_map hn2, enum_names_of_union_map]
        simp only [List.nil_append, List.append_nil]
        exact keys_sorted_nodup hs2
      · rw [union_names_append, union_names_append, union_names_append,
          union_names_of_top htop, union_names_of_finalize_classes,
          union_names_of_enum_map, union_names_of_map hn3]
        simp only [List.nil_append, List.append_nil]
        exact keys_sorted_nodup hs3
  · intro language name m hs hk
    exact entry_or_insert_of_mem_keys hs hk

theorem c2_witness :
    (class_names [Definition.Class
      { type_name := "class", name := "Foo", methods := [], properties := [],
        visibility_modifier := none }]).Nodup ∧
      ensure_class_def "rust" "A" [("A", class_record_pub)] = [("A", class_record_pub)] := by
  constructor
  · exact (c2_container_names_unique.1 "python"
      [capture_class_foo, capture_class_foo]
      [Definition.Class
        { type_name := "class", name := "Foo", methods := [], properties := [],
          visibility_modifier := none }] (by rfl)).1
  · exact c2_container_names_unique.2 "rust" "A" [("A", class_record_pub)]
      (by simp [keys_sorted, map_keys]) (by simp [map_keys])

/-- C4: the extraction output is the top-level definitions (in the order
they were discovered: the definitions after any prefix of the capture
stream are a prefix of the final top-level list), followed by the class
records, then the enum records, then the union records, each keyed map in
strictly ascending key order. -/
theorem c4_emission_order (language : String) (captures : List Capture)
    (hsupported : (get_ts_language language).isSome = true)
    (ds : List Definition) (h : extract_definitions language captures = .ok ds) :
    ds = (run_captures language captures).definitions
        ++ finalize_classes language (run_captures language captures).class_def_map
        ++ (run_captures language captures).enum_def_map.map (fun kv => Definition.Enum kv.2)
        ++ (run_captures language captures).union_def_map.map (fun kv => Definition.Union kv.2) ∧
    top_defs_only (run_captures language captures).definitions ∧
    keys_sorted (run_captures language captures).class_def_map ∧
    keys_sorted (run_captures language captures).enum_def_map ∧
    keys_sorted (run_captures language captures).union_def_map ∧
    (∀ n, (run_captures language (captures.take n)).definitions <+:
        (run_captures language captures).definitions) := by
  rw [extract_definitions_eq language captures hsupported] at h
  injection h with h
  subst h
  obtain ⟨hs1, hs2, hs3, hn1, hn2, hn3, htop⟩ := run_captures_inv language captures
  exact ⟨rfl, htop, hs1, hs2, hs3, fun n => run_captures_take_mono language captures n⟩

theorem c4_witness :
    ((run_captures "go" [capture_class_foo, capture_go_lower_prop]).definitions = [] ∧
      keys_sorted (run_captures "go" [capture_class_foo, capture_go_lower_prop]).class_def_map) ∧
    extract_definitions "go" [capture_class_foo, capture_go_lower_prop] =
      .ok [Definition.Class
        { type_name := "class", name := "Bar", methods := [],
          properties := [{ name := "foo", value_type := "" }],
          visibility_modifier := none },
        Definition.Class
        { type_name := "class", name := "Foo", methods := [], properties := [],
          visibility_modifier := none }] := by
  have h := c4_emission_order "go" [capture_class_foo, capture_go_lower_prop] (by rfl)
    [Definition.Class
      { type_name := "class", name := "Bar", methods := [],
        properties := [{ name := "foo", value_type := "" }],
        visibility_modifier := none },
      Definition.Class
      { type_name := "class", name := "Foo", methods := [], properties := [],
        visibility_modifier := none }] (by decide)
  exact ⟨⟨by decide, h.2.2.1⟩, by decide⟩

/-- C6 counterexample: a top-level Elixir `function` capture with no
return-type node is recorded with return type `"void"`, not `""` — the
`function | arrow_function` branch has no Elixir default, contradicting the
claim that the Elixir empty-string default also applies there. -/
theorem c6_counterexample :
    extract_definitions "elixir" [capture_elixir_function] =
      .ok [Definition.Func
        { name := "foo", params := "()", return_type := "void",
          accessibility_modifier := none }] ∧
    function_return_type_node "elixir" capture_elixir_function = none ∧
    function_return_type "elixir" capture_elixir_function ≠ "" := by
  exact ⟨rfl, rfl, by decide⟩

/-- C6 amended: a `method`-branch `Func` built with no return-type node
(no `return_type`/`type`/`returns` field, no constructor rule, no `result`
fallback) records `"void"`, except Elixir, which records `""`; a
`function | arrow_function`-branch `Func` built with no return-type node
records `"void"` for every language, Elixir included. -/
theorem c6_default_return_type (language name : String) (c : Capture)
    (hm : method_return_type_node language name c = none)
    (hf : function_return_type_node language c = none) :
    method_return_type language name c = (if language = "elixir" then "" else "void") ∧
    function_return_type language c = "void" := by
  constructor
  · unfold method_return_type
    rw [hm]
  · unfold function_return_type
    rw [hf]

theorem c6_witness :
    method_return_type_node "elixir" "Foo" capture_method_orphan = none ∧
      function_return_type_node "elixir" capture_method_orphan = none ∧
      method_return_type "elixir" "Foo" capture_method_orphan = "" ∧
      function_return_type "elixir" capture_method_orphan = "void" ∧
      method_return_type "python" "Foo" capture_method_orphan = "void" := by
  refine ⟨rfl, rfl, ?_, ?_, ?_⟩
  · have h := (c6_default_return_type "elixir" "Foo" capture_method_orphan rfl rfl).1
    simpa using h
  · exact (c6_default_return_type "elixir" "Foo" capture_method_orphan rfl rfl).2
  · have h := (c6_default_return_type "python" "Foo" capture_method_orphan rfl rfl).1
    simpa using h

/-! ### Serializer lemmas -/

theorem str_nl_free_append {a b : String} (ha : str_nl_free a) (hb : str_nl_free b) :
    str_nl_free (a ++ b) := by
  unfold str_nl_free at *
  rw [String.data_append]
  intro h
  rcases List.mem_append.mp h with h | h
  · exact ha h
  · exact hb h

theorem ends_semi_append {a b : String} (hb : ends_semi b) : ends_semi (a ++ b) := by
  unfold ends_semi at *
  rw [String.data_append, List.getLast?_append, hb]
  rfl

theorem ends_semi_lit : ends_semi ";" := by
  unfold ends_semi
  decide

theorem ends_semi_brace_lit : ends_semi "\x7d;" := by
  unfold ends_semi
  decide

theorem stringify_function_ends (f : Func) : ends_semi (stringify_function f) :=
  ends_semi_append ends_semi_lit

theorem stringify_variable_ends (v : Variable) : ends_semi (stringify_variable v) :=
  ends_semi_append ends_semi_lit

theorem stringify_class_ends (c : RepoMap.Class) : ends_semi (stringify_class c) :=
  ends_semi_append ends_semi_brace_lit

theorem stringify_enum_ends (e : RepoMap.Enum) : ends_semi (stringify_enum e) :=
  ends_semi_append ends_semi_brace_lit

theorem stringify_union_ends (u : RepoMap.Union) : ends_semi (stringify_union u) :=
  ends_semi_append ends_semi_brace_lit

theorem stringify_definition_ends (d : Definition) : ends_semi (stringify_definition d) := by
  cases d with
  | Func f => exact stringify_function_ends f
  | Variable v => exact stringify_variable_ends v
  | Class c => exact stringify_class_ends c
  | Module c => exact stringify_class_ends c
  | Enum e => exact stringify_enum_ends e
  | Union u => exact stringify_union_ends u

theorem ends_semi_foldl {l : List Definition} {s : String} (hl : l ≠ []) :
    ends_semi (l.foldl (fun res d => res ++ stringify_definition d) s) := by
  induction l generalizing s with
  | nil => cases hl rfl
  | cons d rest ih =>
    simp only [List.foldl_cons]
    cases rest with
    | nil =>
      simp only [List.foldl_nil]
      exact ends_semi_append (stringify_definition_ends d)
    | cons d2 r2 => exact ih (by simp)

theorem stringify_definitions_ends {ds : List Definition} (h : ds ≠ []) :
    ends_semi (stringify_definitions ds) :=
  ends_semi_foldl h

theorem stringify_function_nl {f : Func} (hf : func_nl_free f) :
    str_nl_free (stringify_function f) := by
  obtain ⟨h1, h2, h3, h4⟩ := hf
  cases hm : f.accessibility_modifier with
  | none =>
    simp only [stringify_function, hm]
    repeat' split
    all_goals
      repeat'
        first
          | apply str_nl_free_append
          | exact h1
          | exact h2
          | exact h3
          | (unfold str_nl_free; decide)
  | some m =>
    rw [hm] at h4
    simp only [stringify_function, hm]
    repeat' split
    all_goals
      repeat'
        first
          | apply str_nl_free_append
          | exact h1
          | exact h2
          | exact h3
          | exact h4
          | (unfold str_nl_free; decide)

theorem stringify_variable_nl {v : Variable} (hv : var_nl_free v) :
    str_nl_free (stringify_variable v) := by
  obtain ⟨h1, h2⟩ := hv
  simp only [stringify_variable]
  repeat' split
  all_goals
    repeat'
      first
        | apply str_nl_free_append
        | exact h1
        | exact h2
        | (unfold str_nl_free; decide)

theorem stringify_enum_item_nl {v : Variable} (hv : var_nl_free v) :
    str_nl_free (stringify_enum_item v) := by
  obtain ⟨h1, h2⟩ := hv
  simp only [stringify_enum_item]
  repeat' split
  all_goals
    repeat'
      first
        | apply str_nl_free_append
        | exact h1
        | exact h2
        | (unfold str_nl_free; decide)

theorem stringify_union_item_nl {v : Variable} (hv : var_nl_free v) :
    str_nl_free (stringify_union_item v) := by
  obtain ⟨h1, h2⟩ := hv
  simp only [stringify_union_item]
  repeat' split
  all_goals
    repeat'
      first
        | apply str_nl_free_append
        | exact h1
        | exact h2
        | (unfold str_nl_free; decide)

theorem foldl_stringify_nl {β : Type} {g : β → String} {l : List β} {s : String}
    (hs : str_nl_free s) (hl : ∀ x ∈ l, str_nl_free (g x)) :
    str_nl_free (l.foldl (fun res x => res ++ g x) s) := by
  induction l generalizing s with
  | nil => exact hs
  | cons x rest ih =>
    simp only [List.foldl_cons]
    exact ih (str_nl_free_append hs (hl x (List.mem_cons_self _ _)))
      (fun y hy => hl y (List.mem_cons_of_mem _ hy))

theorem stringify_class_nl {c : RepoMap.Class} (hc : class_nl_free c) :
    str_nl_free (stringify_class c) := by
  obtain ⟨h1, h2, h3, h4⟩ := hc
  refine str_nl_free_append ?_ (by unfold str_nl_free; decide)
  refine foldl_stringify_nl (foldl_stringify_nl ?_ ?_) ?_
  · repeat'
      first
        | apply str_nl_free_append
        | exact h1
        | exact h2
        | (unfold str_nl_free; decide)
  · intro m hm
    exact stringify_function_nl (h3 m hm)
  · intro p hp
    exact stringify_variable_nl (h4 p hp)

theorem stringify_enum_nl {e : RepoMap.Enum} (he : enum_nl_free e) :
    str_nl_free (stringify_enum e) := by
  obtain ⟨h1, h2⟩ := he
  refine str_nl_free_append ?_ (by unfold str_nl_free; decide)
  refine foldl_stringify_nl ?_ ?_
  · repeat'
      first
        | apply str_nl_free_append
        | exact h1
        | (unfold str_nl_free; decide)
  · intro i hi
    exact stringify_enum_item_nl (h2 i hi)

theorem stringify_union_nl {u : RepoMap.Union} (hu : union_nl_free u) :
    str_nl_free (stringify_union u) := by
  obtain ⟨h1, h2⟩ := hu
  refine str_nl_free_append ?_ (by unfold str_nl_free; decide)
  refine foldl_stringify_nl ?_ ?_
  · repeat'
      first
        | apply str_nl_free_append
        | exact h1
        | (unfold str_nl_free; decide)
  · intro i hi
    exact stringify_union_item_nl (h2 i hi)

theorem stringify_definition_nl {d : Definition} (hd : def_nl_free d) :
    str_nl_free (stringify_definition d) := by
  cases d with
  | Func f => exact stringify_function_nl hd
  | Variable v => exact stringify_variable_nl hd
  | Class c => exact stringify_class_nl hd
  | Module c => exact stringify_class_nl hd
  | Enum e => exact stringify_enum_nl hd
  | Union u => exact stringify_union_nl hd

theorem stringify_definitions_nl {ds : List Definition} (h : ∀ d ∈ ds, def_nl_free d) :
    str_nl_free (stringify_definitions ds) :=
  foldl_stringify_nl (by unfold str_nl_free; decide) (fun d hd => stringify_definition_nl (h d hd))

/-- C8 counterexample: a parameter list is recorded verbatim, so a
multi-line parameter list puts a newline into the outline string — the
claimed universal absence of newlines fails. -/
theorem c8_counterexample :
    get_definitions_string "python" [capture_newline_params] =
      .ok "func f(a,\n b) -> void;" ∧
    Char.ofNat 10 ∈ ("func f(a,\n b) -> void;").data := by
  exact ⟨by decide, by decide⟩

/-- C8 amended: the serializer itself introduces no newline — whenever every
string recorded in the extracted definitions is newline-free, the outline is
newline-free — and whenever the outline is non-empty its last character is
`;`. -/
theorem c8_serializer_shape (language : String) (captures : List Capture)
    (ds : List Definition) (h : extract_definitions language captures = .ok ds) :
    (stringify_definitions ds ≠ "" → ends_semi (stringify_definitions ds)) ∧
    ((∀ d ∈ ds, def_nl_free d) → str_nl_free (stringify_definitions ds)) ∧
    get_definitions_string language captures = .ok (stringify_definitions ds) := by
  refine ⟨?_, stringify_definitions_nl, ?_⟩
  · intro hne
    cases hds : ds with
    | nil =>
      subst hds
      exact absurd rfl hne
    | cons d rest =>
      subst hds
      exact stringify_definitions_ends (by simp)
  · simp only [get_definitions_string, h]

theorem c8_witness :
    ends_semi (stringify_definitions [Definition.Func
      { name := "f", params := "(a, b)", return_type := "void",
        accessibility_modifier := none }]) ∧
    str_nl_free (stringify_definitions [Definition.Func
      { name := "f", params := "(a, b)", return_type := "void",
        accessibility_modifier := none }]) ∧
    get_definitions_string "python" [capture_plain_function] =
      .ok (stringify_definitions [Definition.Func
        { name := "f", params := "(a, b)", return_type := "void",
          accessibility_modifier := none }]) := by
  have h := c8_serializer_shape "python" [capture_plain_function]
    [Definition.Func
      { name := "f", params := "(a, b)", return_type := "void",
        accessibility_modifier := none }] (by rfl)
  refine ⟨h.1 (by decide), h.2.1 ?_, h.2.2⟩
  intro d hd
  simp only [List.mem_cons, List.not_mem_nil, or_false] at hd
  subst hd
  exact ⟨by unfold str_nl_free; decide, by unfold str_nl_free; decide,
    by unfold str_nl_free; decide, trivial⟩

/-! ### The Go case invariant -/

theorem go_name_ok_of_guard3 {name : String}
    (h : ¬(name ≠ "" ∧ "go" = "go" ∧ is_first_letter_uppercase name = false)) :
    go_name_ok name := by
  by_cases hn : name = ""
  · exact Or.inl hn
  · cases hu : is_first_letter_uppercase name with
    | false => exact absurd ⟨hn, rfl, hu⟩ h
    | true => exact Or.inr hu

theorem go_name_ok_of_guard2 {name : String}
    (h : ¬("go" = "go" ∧ is_first_letter_uppercase name = false)) :
    go_name_ok name := by
  cases hu : is_first_letter_uppercase name with
  | false => exact absurd ⟨rfl, hu⟩ h
  | true => exact Or.inr hu

theorem go_class_entries_entry_or_insert {m : List (String × RepoMap.Class)}
    {k : String} {d : RepoMap.Class} (hm : ∀ kv ∈ m, go_class_entry kv)
    (hd : go_class_entry (k, d)) : ∀ kv ∈ entry_or_insert m k d, go_class_entry kv := by
  intro kv hkv
  rcases mem_entry_or_insert hkv with h | rfl
  · exact hm kv h
  · exact hd

theorem go_class_entries_map_modify {m : List (String × RepoMap.Class)}
    {k : String} {g : RepoMap.Class → RepoMap.Class} (hm : ∀ kv ∈ m, go_class_entry kv)
    (hg : ∀ kv, go_class_entry kv → go_class_entry (kv.1, g kv.2)) :
    ∀ kv ∈ map_modify m k g, go_class_entry kv := by
  intro kv hkv
  obtain ⟨kv₀, h₀, hcase⟩ := mem_map_modify hkv
  rcases hcase with rfl | rfl
  · exact hm _ h₀
  · exact hg kv₀ (hm _ h₀)

theorem go_keys_entry_or_insert {α : Type} {m : List (String × α)} {k : String} {d : α}
    (hm : ∀ kv ∈ m, go_name_ok kv.1) (hk : go_name_ok k) :
    ∀ kv ∈ entry_or_insert m k d, go_name_ok kv.1 := by
  intro kv hkv
  rcases mem_entry_or_insert hkv with h | rfl
  · exact hm kv h
  · exact hk

theorem go_keys_map_modify {α : Type} {m : List (String × α)} {k : String} {g : α → α}
    (hm : ∀ kv ∈ m, go_name_ok kv.1) : ∀ kv ∈ map_modify m k g, go_name_ok kv.1 := by
  intro kv hkv
  obtain ⟨kv₀, h₀, hcase⟩ := mem_map_modify hkv
  rcases hcase with rfl | rfl
  · exact hm _ h₀
  · exact hm kv₀ h₀

theorem go_inv_class_update {st : ExtractState} {m : List (String × RepoMap.Class)}
    (h : go_inv st) (hm : ∀ kv ∈ m, go_class_entry kv) :
    go_inv { st with class_def_map := m } :=
  ⟨h.1, hm, h.2.2.1, h.2.2.2⟩

theorem go_inv_enum_update {st : ExtractState} {m : List (String × RepoMap.Enum)}
    (h : go_inv st) (hm : ∀ kv ∈ m, go_name_ok kv.1) :
    go_inv { st with enum_def_map := m } :=
  ⟨h.1, h.2.1, hm, h.2.2.2⟩

theorem go_inv_push {st : ExtractState} {d : Definition} (h : go_inv st)
    (hd : go_def_ok d) : go_inv { st with definitions := st.definitions ++ [d] } := by
  refine ⟨?_, h.2.1, h.2.2.1, h.2.2.2⟩
  intro d' hd'
  rcases List.mem_append.mp hd' with hmem | hmem
  · exact h.1 d' hmem
  · simp only [List.mem_cons, List.not_mem_nil, or_false] at hmem
    subst hmem
    exact hd

theorem go_inv_ite {P : Prop} [Decidable P] {t u : ExtractState}
    (ht : P → go_inv t) (hu : ¬P → go_inv u) : go_inv (if P then t else u) := by
  by_cases hp : P
  · rw [if_pos hp]
    exact ht hp
  · rw [if_neg hp]
    exact hu hp

theorem process_class_go {st : ExtractState} {name : String} {c : Capture}
    (h : go_inv st) : go_inv (process_class "go" st name c) := by
  delta process_class
  refine go_inv_ite (fun hname => ?_) (fun _ => h)
  refine go_inv_ite (fun _ => h) (fun hguard => ?_)
  have hname_ok : go_name_ok name := go_name_ok_of_guard2 hguard
  refine go_inv_class_update h ?_
  refine go_class_entries_map_modify (go_class_entries_entry_or_insert h.2.1 ?_) ?_
  · exact ⟨hname_ok, fun f hf => absurd hf (List.not_mem_nil f),
      fun p hp => absurd hp (List.not_mem_nil p)⟩
  · intro kv hkv
    exact hkv

theorem process_enum_item_go {st : ExtractState} {name : String} {c : Capture}
    (h : go_inv st) : go_inv (process_enum_item "go" st name c) := by
  delta process_enum_item
  refine go_inv_ite (fun _ => h) (fun _ => ?_)
  refine go_inv_ite (fun _ => h) (fun _ => ?_)
  refine go_inv_ite (fun _ => h) (fun hguard => ?_)
  have hkey : go_name_ok (enum_item_enum_name "go" c) := go_name_ok_of_guard3 hguard
  refine go_inv_enum_update h ?_
  exact go_keys_map_modify (go_keys_entry_or_insert h.2.2.1 hkey)

theorem process_union_item_go {st : ExtractState} {name : String} {c : Capture}
    (h : go_inv st) : go_inv (process_union_item "go" st name c) := by
  delta process_union_item
  refine go_inv_ite (fun _ => h) (fun hcon => ?_)
  exact absurd (by decide : ("go" : String) ≠ "zig") hcon

theorem process_method_go {st : ExtractState} {name : String} {c : Capture}
    (h : go_inv st) : go_inv (process_method "go" st name c) := by
  delta process_method
  refine go_inv_ite (fun _ => h) (fun _ => ?_)
  refine go_inv_ite (fun _ => h) (fun _ => ?_)
  refine go_inv_ite (fun _ => h) (fun _ => ?_)
  refine go_inv_ite (fun _ => h) (fun _ => ?_)
  refine go_inv_ite (fun _ => h) (fun _ => ?_)
  refine go_inv_ite (fun _ => h) (fun hname_guard => ?_)
  refine go_inv_ite (fun _ => h) (fun _ => ?_)
  refine go_inv_ite (fun _ => h) (fun _ => ?_)
  refine go_inv_ite (fun _ => h) (fun hclass_guard => ?_)
  have hname_ok : go_name_ok name := go_name_ok_of_guard3 hname_guard
  have hclass_ok : go_name_ok (method_class_name "go" c) := go_name_ok_of_guard2 hclass_guard
  refine go_inv_class_update h ?_
  refine go_class_entries_map_modify (go_class_entries_entry_or_insert h.2.1 ?_) ?_
  · exact ⟨hclass_ok, fun f hf => absurd hf (List.not_mem_nil f),
      fun p hp => absurd hp (List.not_mem_nil p)⟩
  · intro kv hkv
    refine ⟨hkv.1, ?_, hkv.2.2⟩
    intro f hf
    rcases List.mem_append.mp hf with hmem | hmem
    · exact hkv.2.1 f hmem
    · simp only [List.mem_cons, List.not_mem_nil, or_false] at hmem
      subst hmem
      exact hname_ok

theorem process_class_variable_go {st : ExtractState} {name : String} {c : Capture}
    (h : go_inv st) : go_inv (process_class_variable "go" st name c) := by
  delta process_class_variable
  refine go_inv_ite (fun _ => h) (fun _ => ?_)
  refine go_inv_ite (fun _ => h) (fun _ => ?_)
  refine go_inv_ite (fun _ => h) (fun _ => ?_)
  refine go_inv_ite (fun _ => h) (fun _ => ?_)
  refine go_inv_ite (fun _ => h) (fun _ => ?_)
  refine go_inv_ite (fun _ => h) (fun _ => ?_)
  refine go_inv_ite (fun _ => h) (fun hclass_guard => ?_)
  refine go_inv_ite (fun _ => h) (fun _ => ?_)
  refine go_inv_ite (fun _ => h) (fun hname_guard => ?_)
  have hname_ok : go_name_ok name := go_name_ok_of_guard3 hname_guard
  have hclass_ok : go_name_ok (class_variable_class_name "go" c) :=
    go_name_ok_of_guard3 hclass_guard
  refine go_inv_class_update h ?_
  refine go_class_entries_map_modify (go_class_entries_entry_or_insert h.2.1 ?_) ?_
  · exact ⟨hclass_ok, fun f hf => absurd hf (List.not_mem_nil f),
      fun p hp => absurd hp (List.not_mem_nil p)⟩
  · intro kv hkv
    refine ⟨hkv.1, hkv.2.1, ?_⟩
    intro p hp
    rcases List.mem_append.mp hp with hmem | hmem
    · exact hkv.2.2 p hmem
    · simp only [List.mem_cons, List.not_mem_nil, or_false] at hmem
      subst hmem
      exact hname_ok

theorem process_function_go {st : ExtractState} {name : String} {c : Capture}
    (h : go_inv st) : go_inv (process_function "go" st name c) := by
  delta process_function
  refine go_inv_ite (fun _ => h) (fun _ => ?_)
  refine go_inv_ite (fun _ => h) (fun _ => ?_)
  refine go_inv_ite (fun _ => h) (fun _ => ?_)
  refine go_inv_ite (fun _ => h) (fun _ => ?_)
  refine go_inv_ite (fun _ => h) (fun _ => ?_)
  refine go_inv_ite (fun _ => h) (fun hname_guard => ?_)
  refine go_inv_ite (fun _ => h) (fun _ => ?_)
  refine go_inv_ite (fun _ => h) (fun _ => ?_)
  refine go_inv_ite (fun _ => h) (fun _ => ?_)
  refine go_inv_ite (fun _ => h) (fun _ => ?_)
  have hname_ok : go_name_ok name := go_name_ok_of_guard3 hname_guard
  refine go_inv_push h ?_
  intro n hn
  simp only [definition_names, List.mem_cons, List.not_mem_nil, or_false] at hn
  subst hn
  exact hname_ok

theorem process_assignment_go {st : ExtractState} {c : Capture}
    (h : go_inv st) : go_inv (process_assignment "go" st c) := by
  delta process_assignment
  refine go_inv_ite (fun _ => h) (fun _ => ?_)
  refine go_inv_ite (fun _ => h) (fun _ => ?_)
  refine go_inv_ite (fun _ => h) (fun _ => ?_)
  refine go_inv_ite (fun _ => h) (fun _ => ?_)
  refine go_inv_ite (fun _ => h) (fun _ => ?_)
  refine go_inv_ite (fun _ => h) (fun hleft_guard => ?_)
  have hleft_ok : go_name_ok (assignment_left c.node) := go_name_ok_of_guard3 hleft_guard
  refine go_inv_push h ?_
  intro n hn
  simp only [definition_names, List.mem_cons, List.not_mem_nil, or_false] at hn
  subst hn
  exact hleft_ok

theorem process_variable_tail_go {st : ExtractState} {name : String} {c : Capture}
    (h : go_inv st) : go_inv (process_variable_tail "go" st name c) := by
  delta process_variable_tail
  refine go_inv_ite (fun _ => h) (fun _ => ?_)
  refine go_inv_ite (fun _ => h) (fun hname_guard => ?_)
  have hname_ok : go_name_ok name := go_name_ok_of_guard3 hname_guard
  refine go_inv_push h ?_
  intro n hn
  simp only [definition_names, List.mem_cons, List.not_mem_nil, or_false] at hn
  subst hn
  exact hname_ok

theorem process_variable_go {st : ExtractState} {name : String} {c : Capture}
    (h : go_inv st) (hnoarrow : variable_value_arrow c = false) :
    go_inv (process_variable "go" st name c) := by
  delta process_variable
  refine go_inv_ite (fun _ => h) (fun _ => ?_)
  refine go_inv_ite (fun _ => h) (fun _ => ?_)
  refine go_inv_ite (fun _ => h) (fun _ => ?_)
  refine go_inv_ite (fun _ => h) (fun _ => ?_)
  refine go_inv_ite (fun _ => h) (fun _ => ?_)
  refine go_inv_ite (fun _ => h) (fun _ => ?_)
  unfold variable_value_arrow at hnoarrow
  cases hv : child_by_field_name c.node "value" with
  | none => exact process_variable_tail_go h
  | some value_node =>
    simp only [hv] at hnoarrow
    refine go_inv_ite (fun hk => ?_) (fun _ => process_variable_tail_go h)
    exfalso
    rw [hk] at hnoarrow
    simp at hnoarrow

theorem process_capture_go {st : ExtractState} {c : Capture} (h : go_inv st)
    (hc1 : c.name ≠ "module") (hc2 : c.name ≠ "class_assignment")
    (hc3 : c.name = "variable" → variable_value_arrow c = false) :
    go_inv (process_capture "go" st c) := by
  delta process_capture
  split
  · exact process_class_go h
  · next heq => exact absurd heq hc1
  · exact process_enum_item_go h
  · exact process_union_item_go h
  · exact process_method_go h
  · next heq => exact absurd heq hc2
  · exact process_class_variable_go h
  · exact process_function_go h
  · exact process_function_go h
  · exact process_assignment_go h
  · next heq => exact process_variable_go h (hc3 heq)
  · exact h

theorem step_capture_go {st : ExtractState} {c : Capture} (h : go_inv st)
    (hc1 : c.name ≠ "module") (hc2 : c.name ≠ "class_assignment")
    (hc3 : c.name = "variable" → variable_value_arrow c = false) :
    go_inv (step_capture "go" st c) := by
  delta step_capture
  by_cases hd : node_in_captured st.captured_nodes c.name c.node.id = true
  · rw [if_pos hd]
    exact h
  · rw [if_neg hd]
    exact process_capture_go h hc1 hc2 hc3

theorem go_inv_init : go_inv init_state := by
  refine ⟨?_, ?_, ?_, ?_⟩
  all_goals intro x hx; cases hx

theorem run_captures_go (captures : List Capture)
    (hc : ∀ cp ∈ captures, cp.name ≠ "module" ∧ cp.name ≠ "class_assignment" ∧
      (cp.name = "variable" → variable_value_arrow cp = false)) :
    go_inv (run_captures "go" captures) := by
  unfold run_captures
  suffices hgen : ∀ st, go_inv st → go_inv (captures.foldl (step_capture "go") st) from
    hgen init_state go_inv_init
  induction captures with
  | nil => exact fun st hst => hst
  | cons cp rest ih =>
    intro st hst
    have hcp := hc cp (List.mem_cons_self _ _)
    exact ih (fun x hx => hc x (List.mem_cons_of_mem _ hx)) _
      (step_capture_go hst hcp.1 hcp.2.1 hcp.2.2)

/-- C7 counterexample: a Go `class_assignment` capture's property name is
never case-checked — `foo = 1` inside class `Bar` puts the lowercase
identifier `foo` into the Go outline, so the claim that every capture with
a non-uppercase symbol name is dropped fails. -/
theorem c7_counterexample :
    extract_definitions "go" [capture_go_lower_prop] =
      .ok [Definition.Class
        { type_name := "class", name := "Bar", methods := [],
          properties := [{ name := "foo", value_type := "" }],
          visibility_modifier := none }] ∧
    "foo" ∈ outline_names [Definition.Class
      { type_name := "class", name := "Bar", methods := [],
        properties := [{ name := "foo", value_type := "" }],
        visibility_modifier := none }] ∧
    is_first_letter_uppercase "foo" = false := by
  refine ⟨by rfl, ?_, by decide⟩
  simp [outline_names, definition_names]

/-- C7 amended: in a Go outline built from a capture stream with no
`module` captures, no `class_assignment` captures, and no `variable`
captures whose `value` is an arrow function (those three paths skip the
case check), every identifier among top-level variable and function names,
class names, method names, property names, and enum/union container names
is either empty (synthesised names are not case-checked) or begins with an
uppercase letter. -/
theorem c7_go_case_invariant (captures : List Capture) (ds : List Definition)
    (hc : ∀ cp ∈ captures, cp.name ≠ "module" ∧ cp.name ≠ "class_assignment" ∧
      (cp.name = "variable" → variable_value_arrow cp = false))
    (h : extract_definitions "go" captures = .ok ds) :
    ∀ n ∈ outline_names ds, go_name_ok n := by
  rw [extract_definitions_eq "go" captures rfl] at h
  injection h with h
  subst h
  obtain ⟨hs1, hs2, hs3, hn1, hn2, hn3, htop⟩ := run_captures_inv "go" captures
  obtain ⟨hg1, hg2, hg3, hg4⟩ := run_captures_go captures hc
  intro n hn
  simp only [finalize, outline_names, List.map_append, List.flatten_append,
    List.mem_append, List.map_map] at hn
  rcases hn with ((hn | hn) | hn) | hn
  · simp only [List.mem_flatten, List.mem_map] at hn
    obtain ⟨l, ⟨d, hd, rfl⟩, hnl⟩ := hn
    exact hg1 d hd n hnl
  · simp only [List.mem_flatten, List.mem_map] at hn
    obtain ⟨l, ⟨d, hd, rfl⟩, hnl⟩ := hn
    simp only [finalize_classes, List.mem_filterMap] at hd
    obtain ⟨kv, hkv, hf⟩ := hd
    unfold finalize_classes_entry at hf
    rw [if_neg (by decide : ¬("go" : String) = "rust")] at hf
    injection hf with hf
    subst hf
    simp only [definition_names, List.mem_cons, List.mem_append, List.mem_map] at hnl
    rcases hnl with rfl | hnl
    · rw [show kv.2.name = kv.1 from hn1 kv hkv]
      exact (hg2 kv hkv).1
    · rcases hnl with ⟨f, hf, rfl⟩ | ⟨p, hp, rfl⟩
      · exact (hg2 kv hkv).2.1 f hf
      · exact (hg2 kv hkv).2.2 p hp
  · simp only [List.mem_flatten, List.mem_map, Function.comp] at hn
    obtain ⟨l, ⟨kv, hkv, rfl⟩, hnl⟩ := hn
    simp only [definition_names, List.mem_cons, List.not_mem_nil, or_false] at hnl
    subst hnl
    rw [show kv.2.name = kv.1 from hn2 kv hkv]
    exact hg3 kv hkv
  · simp only [List.mem_flatten, List.mem_map, Function.comp] at hn
    obtain ⟨l, ⟨kv, hkv, rfl⟩, hnl⟩ := hn
    simp only [definition_names, List.mem_cons, List.not_mem_nil, or_false] at hnl
    subst hnl
    rw [show kv.2.name = kv.1 from hn3 kv hkv]
    exact hg4 kv hkv

theorem c7_witness : go_name_ok "Foo" :=
  c7_go_case_invariant [capture_class_foo]
    [Definition.Class
      { type_name := "class", name := "Foo", methods := [], properties := [],
        visibility_modifier := none }]
    (by decide) (by rfl) "Foo" (by decide)

/-- Selecting the `"method"` branch of the capture dispatch. -/
theorem process_capture_method_eq (language : String) (st : ExtractState) (c : Capture)
    (h : c.name = "method") :
    process_capture language st c = process_method language st (derive_name language c) c := by
  delta process_capture
  rw [h]
  exact rfl

/-- C10 counterexample: a Go `method` capture that passes every visibility
filter (`Foo` is uppercase) but whose container resolution yields the empty
string is dropped — the same capture under Python is kept and accreted into
a class keyed by the empty string.  The claim excepted only Rust, but Go
also drops the method (the empty container name fails Go's uppercase
check). -/
theorem c10_counterexample :
    extract_definitions "go" [capture_method_orphan] = .ok [] ∧
    extract_definitions "python" [capture_method_orphan] =
      .ok [Definition.Class
        { type_name := "class", name := "",
          methods := [{ name := "Foo", params := "()", return_type := "void",
                        accessibility_modifier := none }],
          properties := [], visibility_modifier := none }] :=
  ⟨rfl, rfl⟩

/-- C10 amended: for every supported language other than Rust and Go, a
`method` capture that passes the visibility filters but whose container
resolution yields the empty string is not dropped: it is accreted into a
class record keyed by the empty string and emitted in the outline as a
class with an empty name, with kind label `class` (`module` for Elixir). -/
theorem c10_empty_container_method (language : String) (c : Capture)
    (hsupported : (get_ts_language language).isSome = true)
    (hrust : language ≠ "rust") (hgo : language ≠ "go")
    (hkind : c.name = "method")
    (hswift : ¬(language = "swift" ∧
      contains_substr (visibility_modifier_text c.node) "private" = true))
    (hjava : ¬(language = "java" ∧ java_modifiers_private c.node = true))
    (hzig : ¬(language = "zig" ∧
      ¬(zig_is_function_declaration_public c = true ∧
        zig_is_variable_declaration_public c = true)))
    (hcpp : ¬(language = "cpp" ∧
      (find_descendant_by_type c.node "destructor_name").isSome = true))
    (hcs1 : ¬(language = "csharp" ∧ (find_descendant_by_type c.node "modifier").isNone = true ∧
      csharp_is_primary_constructor c = false))
    (hcs2 : ¬(language = "csharp" ∧
      (match find_descendant_by_type c.node "modifier" with
       | some mv => mv.text == "private"
       | none => false) = true))
    (hclass : method_class_name language c = "") :
    extract_definitions language [c] =
      .ok [Definition.Class
        { type_name := if language = "elixir" then "module" else "class",
          name := "",
          methods := [{ name := derive_name language c,
                        params := method_params language c,
                        return_type :=
                          method_return_type language (derive_name language c) c,
                        accessibility_modifier :=
                          if method_accessibility language c = "" then none
                          else some (method_accessibility language c) }],
          properties := [], visibility_modifier := none }] := by
  rw [extract_definitions_eq language [c] hsupported]
  unfold run_captures
  simp only [List.foldl_cons, List.foldl_nil]
  rw [step_capture_of_fresh (by rfl)]
  rw [process_capture_method_eq language _ c hkind]
  delta process_method
  rw [if_neg hswift, if_neg hjava,
      if_neg (fun hx => hrust hx.1),
      if_neg hzig, if_neg hcpp,
      if_neg (fun hx => hgo hx.2.1),
      if_neg hcs1, if_neg hcs2,
      if_neg (fun hx => hgo hx.1)]
  simp [hclass, hrust, finalize, finalize_classes, finalize_classes_entry,
    ensure_class_def, entry_or_insert, map_modify, init_state]

/-- C10 witness: the amended theorem applied to a Python `method` capture
with no ancestors, whose container name resolves to the empty string. -/
theorem c10_witness :
    (get_ts_language "python").isSome = true ∧
    ("python" : String) ≠ "rust" ∧
    ("python" : String) ≠ "go" ∧
    capture_method_orphan.name = "method" ∧
    ¬(("python" : String) = "swift" ∧
      contains_substr (visibility_modifier_text capture_method_orphan.node) "private" = true) ∧
    method_class_name "python" capture_method_orphan = "" ∧
    extract_definitions "python" [capture_method_orphan] =
      .ok [Definition.Class
        { type_name := "class", name := "",
          methods := [{ name := "Foo", params := "()", return_type := "void",
                        accessibility_modifier := none }],
          properties := [], visibility_modifier := none }] :=
  ⟨by decide, by decide, by decide, rfl, by decide, rfl,
    c10_empty_container_method "python" capture_method_orphan
      (by decide) (by decide) (by decide) rfl
      (by decide) (by decide) (by decide) (by decide) (by decide) (by decide)
      rfl⟩

end RepoMap
